import Mathlib

/-!
FastIO formatting core: a shallow embedding.

The development follows `include/fastio/core.hpp`, `include/fastio/format.hpp`,
`include/fastio/print.hpp` and the integer helpers of `include/fastio/fastio.hpp`.

* C++ `char` sequences (`const char*` plus a length, `std::string_view`, `std::string`)
  are `List Char`; pointers into a template are indices into that list.
* A `throw` is the outcome `Outcome.thrown`, dereferencing a null handle is `Outcome.fault`,
  and a loop of the model that exhausts its fuel is `Outcome.timeout`.  The theorems state
  results as `Outcome.ok _` or `Outcome.thrown _`, so they also show that the fuel given by
  the entry points is enough.
-/

namespace fastio

/-! ## Errors and outcomes -/

/-- The errors of the formatting core.  The first two are raised by
`compile_format_string::validate` (a `throw` inside a `consteval` constructor, which
rejects the template), the other three are the `std::runtime_error`s of
`internal::vformat_to`. -/
inductive FormatError where
  | UnbalancedClose
  | UnbalancedOpen
  | MissingArgument
  | UnterminatedPlaceholder
  | UnmatchedClosingBrace
  deriving DecidableEq, Repr

/-- The message carried by each error, as written in the source. -/
def FormatError.what : FormatError → String
  | .UnbalancedClose => "Unmatched '\x7d' in format string"
  | .UnbalancedOpen => "Unmatched '\x7b' in format string"
  | .MissingArgument => "Not enough arguments for format string"
  | .UnterminatedPlaceholder => "Unclosed placeholder"
  | .UnmatchedClosingBrace => "Unmatched '\x7d'"

/-- Result of running a piece of the program: normal return, a thrown error, a null
handle dereference, or the model running out of fuel. -/
inductive Outcome (α : Type) where
  | ok (a : α)
  | thrown (e : FormatError)
  | fault
  | timeout
  deriving DecidableEq, Repr

/-- Sequencing: the continuation runs only after a normal return. -/
def Outcome.bind {α β : Type} : Outcome α → (α → Outcome β) → Outcome β
  | .ok a, f => f a
  | .thrown e, _ => .thrown e
  | .fault, _ => .fault
  | .timeout, _ => .timeout

/-- Apply a function to the value of a normal return. -/
def Outcome.map {α β : Type} (f : α → β) : Outcome α → Outcome β
  | .ok a => .ok (f a)
  | .thrown e => .thrown e
  | .fault => .fault
  | .timeout => .timeout

/-! ## `compile_format_string` (core.hpp) -/

/-- The template held by a `compile_format_string`: `data_` with `size_` characters
(the literal without its terminating NUL). -/
structure compile_format_string where
  data_ : List Char
  deriving DecidableEq, Repr

/-- Accessor `data ()`. -/
def compile_format_string.data (f : compile_format_string) : List Char := f.data_

/-- Accessor `size ()`: the field `size_`, the number of characters of `data_`. -/
def compile_format_string.size (f : compile_format_string) : Nat := f.data_.length

/-- The `for` loop of `compile_format_string::validate`, from index `i` with counter
`braces`.  `++i; continue;` followed by the loop's own `++i` advances by two.  The
counter is the C++ `int`; it stays within `[-1, size_]`, far from the limits of `int`
for a string literal.  Returns the counter at loop exit, or the error thrown inside. -/
def validate_loop (data_ : List Char) : Nat → Nat → Int → Outcome Int
  | 0, _, _ => .timeout
  | fuel + 1, i, braces =>
    if i < data_.length then
      if data_[i]? = some '{' then
        if i + 1 < data_.length ∧ data_[i + 1]? = some '{' then
          validate_loop data_ fuel (i + 2) braces
        else
          validate_loop data_ fuel (i + 1) (braces + 1)
      else if data_[i]? = some '}' then
        if i + 1 < data_.length ∧ data_[i + 1]? = some '}' then
          validate_loop data_ fuel (i + 2) braces
        else if braces - 1 < 0 then
          .thrown .UnbalancedClose
        else
          validate_loop data_ fuel (i + 1) (braces - 1)
      else
        validate_loop data_ fuel (i + 1) braces
    else
      .ok braces

/-- The method `compile_format_string::validate`: the loop, then the test `braces > 0`. -/
def compile_format_string.validate (f : compile_format_string) : Outcome Unit :=
  (validate_loop f.data_ (f.size + 1) 0 0).bind fun braces =>
    if braces > 0 then .thrown .UnbalancedOpen else .ok ()

/-- The `consteval` constructor from a string literal: stores the characters and runs
`validate`; a throw there rejects the template. -/
def compile_format_string.make (str : List Char) : Outcome compile_format_string :=
  (compile_format_string.validate ⟨str⟩).bind fun _ => .ok ⟨str⟩

/-! ## `format_context` (format.hpp) -/

/-- The output buffer: `m_buffer`, together with the amount passed to
`m_buffer.reserve` by the constructor. -/
structure format_context where
  m_buffer : List Char
  reserved : Nat
  deriving DecidableEq, Repr

/-- Constructor `format_context (initial_capacity)`. -/
def format_context.create (initial_capacity : Nat) : format_context :=
  ⟨[], initial_capacity⟩

/-- Method `push_back (ch)`. -/
def format_context.push_back (ctx : format_context) (ch : Char) : format_context :=
  { ctx with m_buffer := ctx.m_buffer ++ [ch] }

/-- Method `append (str)`. -/
def format_context.append (ctx : format_context) (str : List Char) : format_context :=
  { ctx with m_buffer := ctx.m_buffer ++ str }

/-- Method `str ()`. -/
def format_context.str (ctx : format_context) : List Char := ctx.m_buffer

/-- Method `clear ()`. -/
def format_context.clear (ctx : format_context) : format_context :=
  { ctx with m_buffer := [] }

/-- Method `size ()`. -/
def format_context.size (ctx : format_context) : Nat := ctx.m_buffer.length

/-! ## Values and their rendering -/

/-- Whether plain `char` is a signed type (`std::is_signed_v<char>`); it is on the
x86-64 targets of the library. -/
def char_is_signed : Bool := true

/-- The argument types `format_value_to` distinguishes.  `int` stands for every integral
type other than `bool` and `char`, with its signedness and `sizeof`; `str` for every
type convertible to `std::string_view` (`const char*`, `std::string`,
`std::string_view`), given by its characters; `other` for a type that takes the
`std::ostringstream` fallback (such as `double`), given by the text `oss << value`
yields. -/
inductive Value where
  | bool (b : Bool)
  | int (is_signed : Bool) (size : Nat) (v : Int)
  | char (c : Char)
  | str (s : List Char)
  | other (streamed : List Char)
  deriving DecidableEq, Repr

/-- The characters `std::to_chars (first, last, value)` writes for an integer in base
ten: a minus sign for a negative value, then the decimal digits. -/
def to_chars (value : Int) : List Char :=
  if value < 0 then '-' :: Nat.toDigits 10 value.natAbs else Nat.toDigits 10 value.natAbs

/-- The function `internal::format_integer`: the output of `std::to_chars` is appended.
The 32-character buffer is large enough for every integer type of up to 64 bits. -/
def format_integer (ctx : format_context) (value : Int) : format_context :=
  ctx.append (to_chars value)

/-- The function `internal::format_value_to`. -/
def format_value_to (ctx : format_context) : Value → format_context
  | .bool value => ctx.append (if value then "true".toList else "false".toList)
  | .int _ _ value => format_integer ctx value
  | .char value => ctx.push_back value
  | .str value => ctx.append value
  | .other streamed => ctx.append streamed

/-- The class `format_arg<T>`: a reference to the captured value. -/
structure format_arg where
  m_value : Value
  deriving DecidableEq, Repr

/-- Method `format_arg<T>::format`. -/
def format_arg.format (a : format_arg) (ctx : format_context) : format_context :=
  format_value_to ctx a.m_value

/-- Method `format_arg<T>::estimated_size`.  The integral branch is tested before the
`char` branch, so a `char` takes it too, with `sizeof (char) = 1`. -/
def format_arg.estimated_size (a : format_arg) : Nat :=
  match a.m_value with
  | .bool value => if value then 4 else 5
  | .int is_signed size _ => if is_signed then size * 3 + 2 else size * 3
  | .char _ => if char_is_signed then 1 * 3 + 2 else 1 * 3
  | .str value => value.length
  | .other _ => 32

/-! ## `format_args` (format.hpp) -/

/-- The class `format_args<MaxArgs>`: `MaxArgs` owning slots (`none` is the null
pointer) and the number of filled ones. -/
structure format_args (MaxArgs : Nat) where
  m_args : List (Option format_arg)
  m_count : Nat
  deriving DecidableEq, Repr

/-- The constructor from the call's arguments: slot `i` receives the handle of the
`i`-th argument and the remaining slots stay null.  The `static_assert` is the
hypothesis `h`. -/
def format_args.capture (MaxArgs : Nat) (args : List Value)
    (_h : args.length ≤ MaxArgs) : format_args MaxArgs :=
  ⟨args.map (fun v => some ⟨v⟩) ++ List.replicate (MaxArgs - args.length) none, args.length⟩

/-- Method `get (i)`. -/
def format_args.get {MaxArgs : Nat} (a : format_args MaxArgs) (i : Nat) : Option format_arg :=
  if i < a.m_count then a.m_args[i]?.join else none

/-- Method `size ()`. -/
def format_args.size {MaxArgs : Nat} (a : format_args MaxArgs) : Nat := a.m_count

/-- The loop of `estimate_total_size ()` over the first `m_count` slots; `total` is a
`std::size_t`.  A null slot among them would be dereferenced. -/
def estimate_loop : List (Option format_arg) → Nat → Outcome Nat
  | [], total => .ok total
  | none :: _, _ => .fault
  | some a :: rest, total => estimate_loop rest ((total + a.estimated_size) % 2 ^ 64)

/-- Method `estimate_total_size ()`. -/
def format_args.estimate_total_size {MaxArgs : Nat} (a : format_args MaxArgs) : Outcome Nat :=
  estimate_loop (a.m_args.take a.m_count) 0

/-! ## The substitution driver `internal::vformat_to` -/

/-- The inner loop `while (pos < end && *pos != '}') ++pos;`: the position where it
stops. -/
def find_closing (fmt : List Char) : Nat → Nat → Outcome Nat
  | 0, _ => .timeout
  | fuel + 1, pos =>
    if pos < fmt.length ∧ fmt[pos]? ≠ some '}' then find_closing fmt fuel (pos + 1)
    else .ok pos

/-- The call `ctx.append (std::string_view (literal_start, pos - literal_start))`
guarded by `pos > literal_start`. -/
def flush_literal (ctx : format_context) (fmt : List Char) (literal_start pos : Nat) :
    format_context :=
  if pos > literal_start then ctx.append ((fmt.drop literal_start).take (pos - literal_start))
  else ctx

/-- The outer `while (pos < end)` loop of `vformat_to` followed by the flush of the
remaining literal part.  The state is `pos`, `literal_start` (both as offsets from
`fmt.data ()`), `arg_index` and the context; the result is the context together with
the final `arg_index`. -/
def vformat_loop {MaxArgs : Nat} (fmt : List Char) (args : format_args MaxArgs) :
    Nat → Nat → Nat → Nat → format_context → Outcome (format_context × Nat)
  | 0, _, _, _, _ => .timeout
  | fuel + 1, pos, literal_start, arg_index, ctx =>
    if pos < fmt.length then
      if fmt[pos]? = some '{' then
        if pos + 1 < fmt.length ∧ fmt[pos + 1]? = some '{' then
          let ctx := (flush_literal ctx fmt literal_start pos).push_back '{'
          vformat_loop fmt args fuel (pos + 2) (pos + 2) arg_index ctx
        else
          let ctx := flush_literal ctx fmt literal_start pos
          if arg_index ≥ args.size then .thrown .MissingArgument
          else
            match args.get arg_index with
            | none => .fault
            | some handle =>
              let ctx := handle.format ctx
              (find_closing fmt (fmt.length + 1) (pos + 1)).bind fun pos =>
                if pos = fmt.length then .thrown .UnterminatedPlaceholder
                else vformat_loop fmt args fuel (pos + 1) (pos + 1) (arg_index + 1) ctx
      else if fmt[pos]? = some '}' then
        if pos + 1 < fmt.length ∧ fmt[pos + 1]? = some '}' then
          let ctx := (flush_literal ctx fmt literal_start pos).push_back '}'
          vformat_loop fmt args fuel (pos + 2) (pos + 2) arg_index ctx
        else .thrown .UnmatchedClosingBrace
      else
        vformat_loop fmt args fuel (pos + 1) literal_start arg_index ctx
    else
      .ok (flush_literal ctx fmt literal_start pos, arg_index)

/-- The function `internal::vformat_to`, also reporting how many arguments were used. -/
def vformat_run {MaxArgs : Nat} (ctx : format_context) (fmt : List Char)
    (args : format_args MaxArgs) : Outcome (format_context × Nat) :=
  vformat_loop fmt args (fmt.length + 1) 0 0 0 ctx

/-- The function `internal::vformat_to`. -/
def vformat_to {MaxArgs : Nat} (ctx : format_context) (fmt : List Char)
    (args : format_args MaxArgs) : Outcome format_context :=
  (vformat_run ctx fmt args).map Prod.fst

/-- The body of `format (fmt, args...)` up to its `return`, with
`MaxArgs = sizeof...(Args)`: the arguments are captured, the capacity is estimated, the
context `ctx` is constructed with it and `vformat_to` runs on that context.  The result
is `ctx` as the `return` statement finds it. -/
def format_buffer (fmt : compile_format_string) (args : List Value) :
    Outcome format_context :=
  let fargs := format_args.capture args.length args (Nat.le_refl _)
  fargs.estimate_total_size.bind fun total =>
    let estimated_size := (fmt.size + total) % 2 ^ 64
    let ctx := format_context.create estimated_size
    vformat_to ctx fmt.data fargs

/-- The function `format (fmt, args...)`: its body, then `return std::move (ctx).str ()`. -/
def format (fmt : compile_format_string) (args : List Value) : Outcome (List Char) :=
  (format_buffer fmt args).map format_context.str

/-- The call expression `fastio::format (literal, args...)`: the literal is converted
to a `compile_format_string` by the validating constructor, then `format` runs. -/
def format_call (literal : List Char) (args : List Value) : Outcome (List Char) :=
  (compile_format_string.make literal).bind fun fmt => format fmt args

/-- The text `format_value_to` appends for a value. -/
def render (v : Value) : List Char :=
  (format_value_to (format_context.create 0) v).str

/-! ## Printing to a stream (print.hpp) -/

/-- A `std::ostream`, seen through the text written to it so far.  The stream is taken
in a good state and in its default formatting state (no field width pending), so that
a formatted insertion `os << x` writes exactly the characters of `x`. -/
structure ostream where
  content : List Char
  deriving DecidableEq, Repr

/-- Method `os.write (s, n)`. -/
def ostream.write (os : ostream) (s : List Char) : ostream := ⟨os.content ++ s⟩

/-- Method `os.put (c)`. -/
def ostream.put (os : ostream) (c : Char) : ostream := ⟨os.content ++ [c]⟩

/-- The insertion `os << s` of a text (a string, or a single character as a text of
length one). -/
def ostream.insert (os : ostream) (s : List Char) : ostream := ⟨os.content ++ s⟩

/-- The function `internal::write_integer`: the output of `std::to_chars` is written. -/
def write_integer (os : ostream) (value : Int) : ostream := os.write (to_chars value)

/-- The function `internal::stream_out`. -/
def stream_out (os : ostream) : Value → ostream
  | .bool value => os.insert (if value then "true".toList else "false".toList)
  | .int _ _ value => write_integer os value
  | .char value => os.insert [value]
  | .str value => os.insert value
  | .other streamed => os.insert streamed

/-- The function `internal::print_impl`: the fold `(stream_out (os, args), ...)`. -/
def print_impl : ostream → List Value → ostream
  | os, [] => os
  | os, a :: rest => print_impl (stream_out os a) rest

/-- The function `internal::print_with_spaces_impl`, with its overload for no
argument. -/
def print_with_spaces_impl : ostream → List Value → ostream
  | os, [] => os
  | os, first :: rest =>
    if rest.length > 0 then print_with_spaces_impl ((stream_out os first).put ' ') rest
    else stream_out os first

/-- The function `fprint`. -/
def fprint (os : ostream) (args : List Value) : ostream := print_impl os args

/-- The function `fprintln`. -/
def fprintln (os : ostream) (args : List Value) : ostream := (print_impl os args).put '\n'

/-- The function `fprint_spaced`. -/
def fprint_spaced (os : ostream) (args : List Value) : ostream :=
  print_with_spaces_impl os args

/-- The function `fprintln_spaced`. -/
def fprintln_spaced (os : ostream) (args : List Value) : ostream :=
  (print_with_spaces_impl os args).put '\n'

/-- The function `fprint_fmt`: `os << format (fmt, args...)`.  The result is the stream
after the call together with how the call ended; `format` runs before anything is
inserted. -/
def fprint_fmt (os : ostream) (fmt : compile_format_string) (args : List Value) :
    ostream × Outcome Unit :=
  match format fmt args with
  | .ok text => (os.insert text, .ok ())
  | .thrown e => (os, .thrown e)
  | .fault => (os, .fault)
  | .timeout => (os, .timeout)

/-- The function `fprintln_fmt`: `os << format (fmt, args...) << '\n'`. -/
def fprintln_fmt (os : ostream) (fmt : compile_format_string) (args : List Value) :
    ostream × Outcome Unit :=
  match format fmt args with
  | .ok text => ((os.insert text).insert ['\n'], .ok ())
  | .thrown e => (os, .thrown e)
  | .fault => (os, .fault)
  | .timeout => (os, .timeout)

/-! ## List-recursive readings of the two scanners

These functions read the same loops over the characters that remain to be scanned.
They are proof devices: `validate_loop_eq` and `vformat_loop_eq` below show that the
index-based loops compute them. -/

/-- The validation scan over the remaining characters, from counter `braces`. -/
def scan_braces : List Char → Int → Outcome Int
  | [], braces => .ok braces
  | [c], braces =>
    if c = '{' then .ok (braces + 1)
    else if c = '}' then
      if braces - 1 < 0 then .thrown .UnbalancedClose else .ok (braces - 1)
    else .ok braces
  | c :: d :: rest, braces =>
    if c = '{' then
      if d = '{' then scan_braces rest braces else scan_braces (d :: rest) (braces + 1)
    else if c = '}' then
      if d = '}' then scan_braces rest braces
      else if braces - 1 < 0 then .thrown .UnbalancedClose
      else scan_braces (d :: rest) (braces - 1)
    else scan_braces (d :: rest) braces

/-- The substitution scan over the remaining characters and the remaining arguments:
the text produced and the number of arguments used.  The flag tells whether the scan
is inside a placeholder, looking for its closing brace. -/
def substitute : Bool → List Char → List Value → Outcome (List Char × Nat)
  | true, [], _ => .thrown .UnterminatedPlaceholder
  | true, c :: rest, args =>
    if c = '}' then substitute false rest args else substitute true rest args
  | false, [], _ => .ok ([], 0)
  | false, c :: rest, args =>
    if c = '{' then
      match rest with
      | [] =>
        match args with
        | [] => .thrown .MissingArgument
        | a :: more => (substitute true rest more).map fun r => (render a ++ r.1, r.2 + 1)
      | d :: rest2 =>
        if d = '{' then (substitute false rest2 args).map fun r => ('{' :: r.1, r.2)
        else
          match args with
          | [] => .thrown .MissingArgument
          | a :: more => (substitute true rest more).map fun r => (render a ++ r.1, r.2 + 1)
    else if c = '}' then
      match rest with
      | [] => .thrown .UnmatchedClosingBrace
      | d :: rest2 =>
        if d = '}' then (substitute false rest2 args).map fun r => ('}' :: r.1, r.2)
        else .thrown .UnmatchedClosingBrace
    else (substitute false rest args).map fun r => (c :: r.1, r.2)

/-- What the scan does at a placeholder: take the next argument, render it, and look
for the closing brace. -/
def fill_placeholder (rest : List Char) : List Value → Outcome (List Char × Nat)
  | [] => .thrown .MissingArgument
  | a :: more => (substitute true rest more).map fun r => (render a ++ r.1, r.2 + 1)

/-! ## Vocabulary of the statements -/

/-- A string without brace characters. -/
def brace_free (s : List Char) : Prop := ∀ c ∈ s, c ≠ '{' ∧ c ≠ '}'

instance (s : List Char) : Decidable (brace_free s) := by
  unfold brace_free
  infer_instance

/-- The template `L0 ++ "{}" ++ L1 ++ "{}" ++ ... ++ "{}" ++ Ln` for the literal spans
`L0` and `[L1, ..., Ln]`. -/
def placeholder_template : List Char → List (List Char) → List Char
  | L0, [] => L0
  | L0, L :: more => L0 ++ '{' :: '}' :: placeholder_template L more

/-- The text `L0 ++ render a1 ++ L1 ++ ... ++ render an ++ Ln`: the spans of
`placeholder_template` with the renderings of the arguments in between. -/
def filled_template : List Char → List (List Char) → List Value → List Char
  | L0, L :: more, a :: args => L0 ++ render a ++ filled_template L more args
  | L0, _, _ => L0

/-- A piece of a template without placeholders: a character that is not a brace, the
pair `{{`, or the pair `}}`. -/
inductive Piece where
  | text (c : Char)
  | open_pair
  | close_pair
  deriving DecidableEq, Repr

/-- The characters a piece contributes to the template. -/
def Piece.source : Piece → List Char
  | .text c => [c]
  | .open_pair => ['{', '{']
  | .close_pair => ['}', '}']

/-- The character a piece stands for in the output. -/
def Piece.shown : Piece → Char
  | .text c => c
  | .open_pair => '{'
  | .close_pair => '}'

/-- The character of a `text` piece is not a brace. -/
def Piece.plain : Piece → Prop
  | .text c => c ≠ '{' ∧ c ≠ '}'
  | _ => True

instance (p : Piece) : Decidable p.plain := by
  cases p <;> unfold Piece.plain <;> infer_instance

/-- The template spelled by a list of pieces. -/
def escaped_template : List Piece → List Char
  | [] => []
  | p :: ps => p.source ++ escaped_template ps

/-- The same text with every doubled brace replaced by the single one. -/
def unescaped_text (ps : List Piece) : List Char := ps.map Piece.shown

/-- What it means for a scan result to be the literal spans `L0, spans` of the template
filled with the leading arguments, one per span boundary. -/
def filled_by (L0 : List Char) (spans : List (List Char)) (args : List Value)
    (r : List Char × Nat) : Prop :=
  spans.length ≤ args.length ∧ r.1 = filled_template L0 spans args ∧ r.2 = spans.length

/-- An unescaped brace of a template. -/
inductive Brace where
  | opening
  | closing
  deriving DecidableEq, Repr

/-- The unescaped braces of a template in order, reading left to right and skipping each
pair `{{` or `}}` as one literal. -/
def unescaped_braces : List Char → List Brace
  | [] => []
  | [c] => if c = '{' then [.opening] else if c = '}' then [.closing] else []
  | c :: d :: rest =>
    if c = '{' then
      if d = '{' then unescaped_braces rest else .opening :: unescaped_braces (d :: rest)
    else if c = '}' then
      if d = '}' then unescaped_braces rest else .closing :: unescaped_braces (d :: rest)
    else unescaped_braces (d :: rest)

/-- The counter of `validate` run over the unescaped braces alone. -/
def walk : List Brace → Int → Outcome Int
  | [], b => .ok b
  | .opening :: bs, b => walk bs (b + 1)
  | .closing :: bs, b => if b - 1 < 0 then .thrown .UnbalancedClose else walk bs (b - 1)

/-- No leading part of the unescaped braces has more closing than opening braces. -/
def never_negative (bs : List Brace) : Prop :=
  ∀ k, (bs.take k).count .closing ≤ (bs.take k).count .opening

/-- The number of unescaped `{` of a template, as `validate` reads it. -/
def unescaped_open_count (t : List Char) : Nat := (unescaped_braces t).count .opening

/-- The driver either returns normally or throws the unmatched-closing-brace error. -/
def ok_or_unmatched {α : Type} (x : Outcome α) : Prop :=
  (∃ r, x = .ok r) ∨ x = .thrown .UnmatchedClosingBrace

/-- The relation between the two scanners that validation maintains: wherever `validate`
still has to come back down to its final counter, the driver, in step with it, neither
runs out of arguments nor finds a placeholder unclosed. -/
def in_step (t : List Char) : Prop :=
  (∀ (b b2 : Int) (args : List Value), scan_braces t b = .ok b2 → b2 ≤ b →
      unescaped_open_count t ≤ args.length → ok_or_unmatched (substitute false t args)) ∧
  (∀ (b b2 : Int) (args : List Value), scan_braces t b = .ok b2 → b2 < b →
      unescaped_open_count t ≤ args.length → ok_or_unmatched (substitute true t args)) ∧
  (∀ (b b2 : Int) (args : List Value), scan_braces ('}' :: t) b = .ok b2 → b2 < b →
      unescaped_open_count ('}' :: t) ≤ args.length →
      ok_or_unmatched (substitute false t args))

/-! ## Vocabulary for numerals and supported values -/

/-- The number a run of decimal digits denotes, most significant digit first. -/
def decimal_value (ds : List Char) : Nat :=
  ds.foldl (fun acc c => acc * 10 + (c.toNat - '0'.toNat)) 0

/-- The integer a decimal numeral with an optional leading minus sign denotes. -/
def read_decimal : List Char → Int
  | '-' :: ds => - (decimal_value ds : Int)
  | ds => (decimal_value ds : Int)

/-- The values of an integer type of `size` bytes: `size` is 1, 2, 4 or 8 and `v` lies
in the two's complement range of a signed type, or in the range of an unsigned one. -/
def int_in_range (is_signed : Bool) (size : Nat) (v : Int) : Prop :=
  (size = 1 ∨ size = 2 ∨ size = 4 ∨ size = 8) ∧
    if is_signed then -(2 : Int) ^ (8 * size - 1) ≤ v ∧ v < (2 : Int) ^ (8 * size - 1)
    else 0 ≤ v ∧ v < (2 : Int) ^ (8 * size)

instance (is_signed : Bool) (size : Nat) (v : Int) : Decidable (int_in_range is_signed size v) := by
  unfold int_in_range
  infer_instance

/-- The directly supported values: a `bool`, an integer of a 1, 2, 4 or 8 byte type, a
character or a string; not a value that takes the stream fallback. -/
def Value.direct : Value → Prop
  | .bool _ => True
  | .int is_signed size v => int_in_range is_signed size v
  | .char _ => True
  | .str _ => True
  | .other _ => False

instance (v : Value) : Decidable v.direct := by
  cases v <;> unfold Value.direct <;> infer_instance

/-- The sum of `estimated_size ()` over the handles of the given arguments. -/
def estimated_sizes_sum (args : List Value) : Nat :=
  (args.map fun v => (format_arg.mk v).estimated_size).sum

/-- The relation between the two scanners that rules out an unclosed placeholder,
whatever the arguments: wherever `validate` still has to come back down to its final
counter, the driver, in step with it, does not end inside a placeholder. -/
def closes_in_step (t : List Char) : Prop :=
  (∀ (b b2 : Int) (args : List Value), scan_braces t b = .ok b2 → b2 ≤ b →
      substitute false t args ≠ .thrown .UnterminatedPlaceholder) ∧
  (∀ (b b2 : Int) (args : List Value), scan_braces t b = .ok b2 → b2 < b →
      substitute true t args ≠ .thrown .UnterminatedPlaceholder) ∧
  (∀ (b b2 : Int) (args : List Value), scan_braces ('}' :: t) b = .ok b2 → b2 < b →
      substitute false t args ≠ .thrown .UnterminatedPlaceholder)

/-! ## Integer helpers `write_int` and `parse_int` (fastio.hpp) -/

/-- The `do ... while (value > 0)` loop of `write_int`: each round stores
`'0' + value % 10` through `*buffer++` and divides `value` by ten.  `written` holds the
characters stored since `start`. -/
def write_int_loop : Nat → Nat → List Char → Outcome (List Char)
  | 0, _, _ => .timeout
  | fuel + 1, value, written =>
    let written := written ++ [Char.ofNat ('0'.toNat + value % 10)]
    let value := value / 10
    if value > 0 then write_int_loop fuel value written else .ok written

/-- The part of `write_int` after the sign test, for a value that is not negative: the
loop, then `std::reverse (start, buffer)`.  The argument `buffer` holds the characters
already stored in front of `start`; the result holds the characters from there up to the
returned pointer. -/
def write_int_digits (buffer : List Char) (value : Nat) : Outcome (List Char) :=
  (write_int_loop (value + 1) value []).map fun written => buffer ++ written.reverse

/-- The function `write_int` for an integer type given by its signedness and `sizeof`.
For a negative value of a signed type a minus sign is stored and the function runs
again on `static_cast<std::make_unsigned_t<T>> (-value)`, the negation and the
conversion taken modulo `2 ^ w`, as two's complement arithmetic gives them. -/
def write_int (buffer : List Char) (is_signed : Bool) (size : Nat) (value : Int) :
    Outcome (List Char) :=
  if is_signed = true ∧ value < 0 then
    write_int_digits (buffer ++ ['-']) ((-value) % 2 ^ (8 * size)).toNat
  else write_int_digits buffer value.toNat

/-- The value of the longest decimal numeral a text begins with, if it begins with one:
an optional minus sign, recognised for a signed type only, then at least one digit. -/
def leading_numeral (is_signed : Bool) (str : List Char) : Option Int :=
  if is_signed = true ∧ str.head? = some '-' then
    if str.tail.takeWhile Char.isDigit = [] then none
    else some (-(decimal_value (str.tail.takeWhile Char.isDigit) : Int))
  else
    if str.takeWhile Char.isDigit = [] then none
    else some (decimal_value (str.takeWhile Char.isDigit) : Int)

/-- The outcome of `std::from_chars` on an integer in base ten: the value parsed, or one
of its two error codes. -/
inductive from_chars_result where
  | ok (value : Int)
  | invalid_argument
  | result_out_of_range
  deriving DecidableEq, Repr

/-- The library function `std::from_chars (first, last, value)` for an integer type in
base ten: it reads the longest numeral at the start of the text, reports
`invalid_argument` when there is none and `result_out_of_range` when its value is not
representable in the type. -/
def from_chars (is_signed : Bool) (size : Nat) (str : List Char) : from_chars_result :=
  match leading_numeral is_signed str with
  | none => .invalid_argument
  | some v => if int_in_range is_signed size v then .ok v else .result_out_of_range

/-- The error `parse_int` throws. -/
inductive ParseError where
  | FailedToParse
  deriving DecidableEq, Repr

/-- The message of the `std::runtime_error` of `parse_int`. -/
def ParseError.what : ParseError → String
  | .FailedToParse => "Failed to parse integer"

/-- How a call of `parse_int` ends: it returns a value or throws. -/
inductive Parsed where
  | value (v : Int)
  | thrown (e : ParseError)
  deriving DecidableEq, Repr

/-- The function `parse_int<T>`: it throws when `std::from_chars` reports an error code
and returns the parsed value otherwise. -/
def parse_int (is_signed : Bool) (size : Nat) (str : List Char) : Parsed :=
  match from_chars is_signed size str with
  | .ok value => .value value
  | .invalid_argument => .thrown .FailedToParse
  | .result_out_of_range => .thrown .FailedToParse

/-! ## Theorems -/

theorem scan_braces_cons (c : Char) (rest : List Char) (b : Int) :
    scan_braces (c :: rest) b =
      if c = '{' then
        if rest.head? = some '{' then scan_braces rest.tail b else scan_braces rest (b + 1)
      else if c = '}' then
        if rest.head? = some '}' then scan_braces rest.tail b
        else if b - 1 < 0 then .thrown .UnbalancedClose else scan_braces rest (b - 1)
      else scan_braces rest b := by
  cases rest with
  | nil => simp [scan_braces]
  | cons d rest2 => simp [scan_braces]

theorem substitute_cons (c : Char) (rest : List Char) (args : List Value) :
    substitute false (c :: rest) args =
      if c = '{' then
        if rest.head? = some '{' then
          (substitute false rest.tail args).map fun r => ('{' :: r.1, r.2)
        else fill_placeholder rest args
      else if c = '}' then
        if rest.head? = some '}' then
          (substitute false rest.tail args).map fun r => ('}' :: r.1, r.2)
        else .thrown .UnmatchedClosingBrace
      else (substitute false rest args).map fun r => (c :: r.1, r.2) := by
  cases rest with
  | nil => cases args <;> simp [substitute, fill_placeholder]
  | cons d rest2 => cases args <;> simp [substitute, fill_placeholder]

/-! ### The index-based loops compute the list-recursive scans -/

theorem next_char_test (fmt : List Char) (i : Nat) (c : Char) :
    (i + 1 < fmt.length ∧ fmt[i + 1]? = some c) ↔ (fmt.drop (i + 1)).head? = some c := by
  rw [List.head?_drop]
  constructor
  · exact fun h => h.2
  · intro h
    refine ⟨?_, h⟩
    by_contra hlt
    rw [List.getElem?_eq_none (by omega)] at h
    cases h

theorem validate_loop_eq (data_ : List Char) :
    ∀ (fuel i : Nat) (b : Int), data_.length - i < fuel →
      validate_loop data_ fuel i b = scan_braces (data_.drop i) b := by
  intro fuel
  induction fuel with
  | zero => intro i b h; omega
  | succ fuel ih =>
    intro i b h
    unfold validate_loop
    by_cases hi : i < data_.length
    · have hget : data_[i]? = some data_[i] := List.getElem?_eq_getElem hi
      rw [List.drop_eq_getElem_cons hi, scan_braces_cons, List.tail_drop]
      simp only [hi, if_true, hget, Option.some.injEq, next_char_test]
      rw [ih (i + 2) b (by omega), ih (i + 1) (b + 1) (by omega),
        ih (i + 1) (b - 1) (by omega), ih (i + 1) b (by omega)]
    · rw [List.drop_eq_nil_of_le (by omega)]
      simp [hi, scan_braces]

/-- The method `validate` accepts or rejects according to the scan of the whole template. -/
theorem validate_eq (str : List Char) :
    compile_format_string.validate ⟨str⟩ =
      (scan_braces str 0).bind fun braces =>
        if braces > 0 then .thrown .UnbalancedOpen else .ok () := by
  unfold compile_format_string.validate compile_format_string.size
  rw [validate_loop_eq str _ 0 0 (by simp)]
  simp

theorem Outcome.map_map {α β γ : Type} (f : α → β) (g : β → γ) (x : Outcome α) :
    (x.map f).map g = x.map (fun a => g (f a)) := by
  cases x <;> rfl

theorem format_context.append_append (ctx : format_context) (a b : List Char) :
    (ctx.append a).append b = ctx.append (a ++ b) := by
  simp [format_context.append]

theorem format_context.append_nil (ctx : format_context) : ctx.append [] = ctx := by
  simp [format_context.append]

theorem format_context.push_back_eq (ctx : format_context) (c : Char) :
    ctx.push_back c = ctx.append [c] := rfl

/-- Rendering only appends: `format_value_to` adds `render v` to the buffer. -/
theorem format_value_to_eq (ctx : format_context) (v : Value) :
    format_value_to ctx v = ctx.append (render v) := by
  cases v <;>
    simp [format_value_to, render, format_integer, format_context.append,
      format_context.push_back, format_context.create, format_context.str]

theorem flush_literal_eq (ctx : format_context) (fmt : List Char) (ls pos : Nat) :
    flush_literal ctx fmt ls pos = ctx.append ((fmt.drop ls).take (pos - ls)) := by
  unfold flush_literal
  split
  · rfl
  · rw [show pos - ls = 0 by omega, List.take_zero, format_context.append_nil]

theorem capture_size (M : Nat) (args : List Value) (h : args.length ≤ M) :
    (format_args.capture M args h).size = args.length := rfl

theorem capture_get (M : Nat) (args : List Value) (h : args.length ≤ M) (k : Nat) :
    (format_args.capture M args h).get k = args[k]?.map fun v => ⟨v⟩ := by
  unfold format_args.get format_args.capture
  by_cases hk : k < args.length
  · simp [hk, List.getElem?_append_left]
  · simp only [hk, if_false]
    rw [List.getElem?_eq_none (by omega)]
    rfl

/-- The slice pending at `pos + 1` is the slice pending at `pos` followed by the
character at `pos`. -/
theorem slice_succ (fmt : List Char) (ls pos : Nat) (h1 : ls ≤ pos) (h2 : pos < fmt.length) :
    (fmt.drop ls).take (pos + 1 - ls) = (fmt.drop ls).take (pos - ls) ++ [fmt[pos]] := by
  rw [show pos + 1 - ls = (pos - ls) + 1 by omega, List.take_succ, List.getElem?_drop,
    show ls + (pos - ls) = pos by omega, List.getElem?_eq_getElem h2]
  rfl

theorem find_closing_spec (fmt : List Char) :
    ∀ (fuel pos : Nat), pos ≤ fmt.length → fmt.length - pos < fuel →
      ∃ p, find_closing fmt fuel pos = .ok p ∧ pos ≤ p ∧ p ≤ fmt.length ∧
        ∀ args, substitute true (fmt.drop pos) args =
          if p = fmt.length then .thrown .UnterminatedPlaceholder
          else substitute false (fmt.drop (p + 1)) args := by
  intro fuel
  induction fuel with
  | zero => intro pos _ h; omega
  | succ fuel ih =>
    intro pos hle h
    unfold find_closing
    by_cases hpos : pos < fmt.length
    · have hget : fmt[pos]? = some fmt[pos] := List.getElem?_eq_getElem hpos
      by_cases hc : fmt[pos] = '}'
      · refine ⟨pos, ?_, le_refl _, hle, ?_⟩
        · simp [hpos, hget, hc]
        · intro args
          rw [List.drop_eq_getElem_cons hpos]
          simp only [substitute, hc, if_true, Nat.ne_of_lt hpos, if_false]
      · obtain ⟨p, hp, hle1, hle2, hsub⟩ := ih (pos + 1) (by omega) (by omega)
        refine ⟨p, ?_, by omega, hle2, ?_⟩
        · simp [hpos, hget, hc, hp]
        · intro args
          rw [List.drop_eq_getElem_cons hpos]
          simp only [substitute, hc, if_false]
          exact hsub args
    · have : pos = fmt.length := by omega
      subst this
      refine ⟨fmt.length, ?_, le_refl _, le_refl _, ?_⟩
      · simp
      · intro args
        simp [substitute]

theorem fill_placeholder_nil (rest : List Char) :
    fill_placeholder rest [] = .thrown .MissingArgument := rfl

theorem fill_placeholder_cons (rest : List Char) (a : Value) (more : List Value) :
    fill_placeholder rest (a :: more) =
      (substitute true rest more).map fun r => (render a ++ r.1, r.2 + 1) := rfl

/-- The loop of `vformat_to`, started anywhere with any pending literal, computes the
list-recursive scan of the remaining characters with the remaining arguments. -/
theorem vformat_loop_eq (fmt : List Char) (M : Nat) (args : List Value)
    (h : args.length ≤ M) :
    ∀ (fuel pos ls k : Nat) (ctx : format_context), ls ≤ pos → fmt.length - pos < fuel →
      vformat_loop fmt (format_args.capture M args h) fuel pos ls k ctx =
        (substitute false (fmt.drop pos) (args.drop k)).map fun r =>
          (ctx.append ((fmt.drop ls).take (pos - ls) ++ r.1), k + r.2) := by
  intro fuel
  induction fuel with
  | zero => intro pos ls k ctx _ hf; omega
  | succ fuel ih =>
    intro pos ls k ctx hls hf
    unfold vformat_loop
    by_cases hpos : pos < fmt.length
    · have hget : fmt[pos]? = some fmt[pos] := List.getElem?_eq_getElem hpos
      rw [List.drop_eq_getElem_cons hpos, substitute_cons, List.tail_drop]
      simp only [hpos, if_true, hget, Option.some.injEq, next_char_test, flush_literal_eq,
        capture_size, capture_get, format_context.push_back_eq, format_context.append_append]
      by_cases ho : fmt[pos] = '{'
      · simp only [ho, if_true]
        by_cases ho2 : (fmt.drop (pos + 1)).head? = some '{'
        · simp only [ho2, if_true]
          rw [ih (pos + 2) (pos + 2) k _ (le_refl _) (by omega), Outcome.map_map]
          congr 1
          funext r
          simp [format_context.append_append]
        · simp only [ho2, if_false]
          by_cases hk : k < args.length
          · have hk2 : ¬ (k ≥ args.length) := by omega
            have hgetk : args[k]? = some args[k] := List.getElem?_eq_getElem hk
            rw [List.drop_eq_getElem_cons hk, fill_placeholder_cons]
            simp only [hk2, if_false, hgetk, Option.map_some', format_arg.format,
              format_value_to_eq, format_context.append_append]
            obtain ⟨p, hp, hp1, hp2, hsub⟩ :=
              find_closing_spec fmt (fmt.length + 1) (pos + 1) (by omega) (by omega)
            rw [hp, hsub]
            simp only [Outcome.bind]
            by_cases hend : p = fmt.length
            · simp [hend, Outcome.map]
            · simp only [hend, if_false]
              rw [ih (p + 1) (p + 1) (k + 1) _ (le_refl _) (by omega), Outcome.map_map]
              congr 1
              funext r
              simp [format_context.append_append, Nat.add_assoc, Nat.add_comm 1]
          · have hk2 : k ≥ args.length := by omega
            rw [List.drop_eq_nil_of_le hk2, fill_placeholder_nil]
            simp [hk2, Outcome.map]
      · simp only [ho, if_false]
        by_cases hc : fmt[pos] = '}'
        · simp only [hc, if_true]
          by_cases hc2 : (fmt.drop (pos + 1)).head? = some '}'
          · simp only [hc2, if_true]
            rw [ih (pos + 2) (pos + 2) k _ (le_refl _) (by omega), Outcome.map_map]
            congr 1
            funext r
            simp [format_context.append_append]
          · simp only [hc2, if_false, Outcome.map]
        · simp only [hc, if_false]
          rw [ih (pos + 1) ls k ctx (by omega) (by omega), Outcome.map_map,
            slice_succ fmt ls pos hls hpos]
          congr 1
          funext r
          simp
    · rw [List.drop_eq_nil_of_le (show fmt.length ≤ pos by omega)]
      simp [hpos, substitute, Outcome.map, flush_literal_eq]

/-! ### The entry points in terms of the scans -/

theorem vformat_run_eq (ctx : format_context) (fmt : List Char) (M : Nat) (args : List Value)
    (h : args.length ≤ M) :
    vformat_run ctx fmt (format_args.capture M args h) =
      (substitute false fmt args).map fun r => (ctx.append r.1, r.2) := by
  unfold vformat_run
  rw [vformat_loop_eq fmt M args h _ 0 0 0 ctx (le_refl _) (by omega)]
  simp only [List.drop_zero, Nat.sub_self, List.take_zero, List.nil_append, Nat.zero_add]

theorem vformat_to_eq (ctx : format_context) (fmt : List Char) (M : Nat) (args : List Value)
    (h : args.length ≤ M) :
    vformat_to ctx fmt (format_args.capture M args h) =
      (substitute false fmt args).map fun r => ctx.append r.1 := by
  unfold vformat_to
  rw [vformat_run_eq, Outcome.map_map]

theorem estimate_loop_some (args : List Value) :
    ∀ total, ∃ n, estimate_loop (args.map fun v => some ⟨v⟩) total = .ok n := by
  induction args with
  | nil => intro total; exact ⟨total, rfl⟩
  | cons a more ih => intro total; exact ih _

theorem capture_estimate (M : Nat) (args : List Value) (h : args.length ≤ M) :
    ∃ n, (format_args.capture M args h).estimate_total_size = .ok n := by
  unfold format_args.estimate_total_size format_args.capture
  simp only
  rw [List.take_left' (by simp)]
  exact estimate_loop_some args 0

/-- The function `format` returns the text the substitution scan produces. -/
theorem format_eq (t : List Char) (args : List Value) :
    format ⟨t⟩ args = (substitute false t args).map Prod.fst := by
  unfold format format_buffer
  obtain ⟨n, hn⟩ := capture_estimate args.length args (Nat.le_refl _)
  simp only [hn, Outcome.bind, vformat_to_eq, Outcome.map_map, compile_format_string.data]
  congr 1

/-- A call of `format` on a literal: validation first, then the substitution scan. -/
theorem format_call_eq (t : List Char) (args : List Value) :
    format_call t args =
      (compile_format_string.validate ⟨t⟩).bind fun _ =>
        (substitute false t args).map Prod.fst := by
  unfold format_call compile_format_string.make
  cases hv : compile_format_string.validate ⟨t⟩ <;> simp [Outcome.bind, format_eq]

/-! ### Properties of the formatting core -/

/-- Induction on a list where the step may use the hypothesis for the tail and for the
tail of the tail, as the two scanners look one character ahead. -/
theorem list_two_step {α : Type} {P : List α → Prop} (hnil : P [])
    (hcons : ∀ c rest, P rest → P rest.tail → P (c :: rest)) : ∀ l, P l := by
  have key : ∀ l : List α, P l ∧ P l.tail := by
    intro l
    induction l with
    | nil => exact ⟨hnil, hnil⟩
    | cons c rest ih => exact ⟨hcons c rest ih.1 ih.2, ih.1⟩
  exact fun l => (key l).1

theorem brace_free_cons {c : Char} {s : List Char} (h : brace_free (c :: s)) :
    c ≠ '{' ∧ c ≠ '}' ∧ brace_free s :=
  ⟨(h c (List.mem_cons_self c s)).1, (h c (List.mem_cons_self c s)).2,
    fun d hd => h d (List.mem_cons_of_mem c hd)⟩

theorem scan_braces_brace_free (s rest : List Char) (hs : brace_free s) (b : Int) :
    scan_braces (s ++ rest) b = scan_braces rest b := by
  induction s with
  | nil => rfl
  | cons c s ih =>
    obtain ⟨h1, h2, h3⟩ := brace_free_cons hs
    rw [List.cons_append, scan_braces_cons]
    simp only [h1, h2, if_false]
    exact ih h3

theorem substitute_brace_free (s rest : List Char) (hs : brace_free s) (args : List Value) :
    substitute false (s ++ rest) args =
      (substitute false rest args).map fun r => (s ++ r.1, r.2) := by
  induction s with
  | nil =>
    simp only [List.nil_append]
    cases substitute false rest args <;> rfl
  | cons c s ih =>
    obtain ⟨h1, h2, h3⟩ := brace_free_cons hs
    rw [List.cons_append, substitute_cons]
    simp only [h1, h2, if_false]
    rw [ih h3, Outcome.map_map]
    rfl

theorem substitute_inside_brace_free (s rest : List Char) (hs : brace_free s)
    (args : List Value) :
    substitute true (s ++ rest) args = substitute true rest args := by
  induction s with
  | nil => rfl
  | cons c s ih =>
    obtain ⟨_, h2, h3⟩ := brace_free_cons hs
    rw [List.cons_append]
    simp only [substitute, h2, if_false]
    exact ih h3

/-- C1. A template without any brace passes validation, and `format` called on it with
no argument returns the template itself. -/
theorem C1_brace_free_template_verbatim (t : List Char) (hfree : brace_free t) :
    compile_format_string.validate ⟨t⟩ = .ok () ∧ format_call t [] = .ok t := by
  have hv : compile_format_string.validate ⟨t⟩ = .ok () := by
    rw [validate_eq]
    have := scan_braces_brace_free t [] hfree 0
    rw [List.append_nil] at this
    rw [this]
    rfl
  refine ⟨hv, ?_⟩
  rw [format_call_eq, hv]
  have := substitute_brace_free t [] hfree []
  rw [List.append_nil] at this
  simp only [Outcome.bind, this]
  simp [substitute, Outcome.map]

theorem C1_brace_free_template_verbatim_witness :
    brace_free "literal only".toList ∧
      compile_format_string.validate ⟨"literal only".toList⟩ = .ok () ∧
      format_call "literal only".toList [] = .ok "literal only".toList :=
  ⟨by decide, C1_brace_free_template_verbatim "literal only".toList (by decide)⟩

theorem placeholder_template_head (L : List Char) (more : List (List Char))
    (hL : brace_free L) : (placeholder_template L more).head? ≠ some '}' := by
  cases L with
  | nil => cases more <;> simp [placeholder_template]
  | cons c L =>
    have hc := (brace_free_cons hL).2.1
    cases more <;> simp [placeholder_template, hc]

/-- One `{}` of a template: the scan copies the literal before it, renders the next
argument and goes on after the closing brace. -/
theorem substitute_placeholder_step (L0 T : List Char) (h0 : brace_free L0)
    (args : List Value) :
    substitute false (L0 ++ '{' :: '}' :: T) args =
      match args with
      | [] => .thrown .MissingArgument
      | a :: more =>
        (substitute false T more).map fun r => (L0 ++ render a ++ r.1, r.2 + 1) := by
  rw [substitute_brace_free _ _ h0, substitute_cons]
  have h1 : ('}' :: T).head? ≠ some '{' := by simp
  simp only [if_true, h1, if_false]
  cases args with
  | nil => rfl
  | cons a more =>
    simp only [fill_placeholder_cons, substitute, if_true, Outcome.map_map, List.append_assoc]

theorem scan_braces_placeholder_template (L0 : List Char) (spans : List (List Char))
    (h0 : brace_free L0) (hs : ∀ L ∈ spans, brace_free L) (b : Int) (hb : 0 ≤ b) :
    scan_braces (placeholder_template L0 spans) b = .ok b := by
  induction spans generalizing L0 with
  | nil =>
    have := scan_braces_brace_free L0 [] h0 b
    rw [List.append_nil] at this
    simpa [placeholder_template, scan_braces] using this
  | cons L more ih =>
    have hL : brace_free L := hs L (List.mem_cons_self L more)
    have hmore : ∀ X ∈ more, brace_free X := fun X hX => hs X (List.mem_cons_of_mem L hX)
    have hhead := placeholder_template_head L more hL
    have h1 : ('}' :: placeholder_template L more).head? ≠ some '{' := by simp
    have h2 : ¬ (b + 1 - 1 < 0) := by omega
    rw [placeholder_template, scan_braces_brace_free _ _ h0, scan_braces_cons]
    simp only [if_true, h1, if_false]
    rw [scan_braces_cons]
    simp only [hhead, if_false, if_true, h2, show ¬ ('}' = '{') by decide]
    rw [show b + 1 - 1 = b by omega]
    exact ih L hL hmore

theorem validate_placeholder_template (L0 : List Char) (spans : List (List Char))
    (h0 : brace_free L0) (hs : ∀ L ∈ spans, brace_free L) :
    compile_format_string.validate ⟨placeholder_template L0 spans⟩ = .ok () := by
  rw [validate_eq, scan_braces_placeholder_template L0 spans h0 hs 0 (le_refl _)]
  rfl

theorem substitute_placeholder_template (L0 : List Char) (spans : List (List Char))
    (args : List Value) (h0 : brace_free L0) (hs : ∀ L ∈ spans, brace_free L)
    (hlen : args.length = spans.length) :
    substitute false (placeholder_template L0 spans) args =
      .ok (filled_template L0 spans args, spans.length) := by
  induction spans generalizing L0 args with
  | nil =>
    have := substitute_brace_free L0 [] h0 args
    rw [List.append_nil] at this
    rw [placeholder_template, this]
    cases args <;> simp [substitute, Outcome.map, filled_template]
  | cons L more ih =>
    have hL : brace_free L := hs L (List.mem_cons_self L more)
    have hmore : ∀ X ∈ more, brace_free X := fun X hX => hs X (List.mem_cons_of_mem L hX)
    cases args with
    | nil => simp at hlen
    | cons a rest =>
      rw [placeholder_template, substitute_placeholder_step _ _ h0]
      simp only
      rw [ih L rest hL hmore (by simpa using hlen)]
      simp [Outcome.map, filled_template]

theorem substitute_too_few (L0 : List Char) (spans : List (List Char))
    (args : List Value) (h0 : brace_free L0) (hs : ∀ L ∈ spans, brace_free L)
    (hlen : args.length < spans.length) :
    substitute false (placeholder_template L0 spans) args = .thrown .MissingArgument := by
  induction spans generalizing L0 args with
  | nil => simp at hlen
  | cons L more ih =>
    have hL : brace_free L := hs L (List.mem_cons_self L more)
    have hmore : ∀ X ∈ more, brace_free X := fun X hX => hs X (List.mem_cons_of_mem L hX)
    rw [placeholder_template, substitute_placeholder_step _ _ h0]
    cases args with
    | nil => rfl
    | cons a rest =>
      simp only
      rw [ih L rest hL hmore (by simpa using hlen)]
      rfl

/-- C2. For brace-free literal spans `L0, ..., Ln` and `n` arguments, `format` on
`L0 ++ "{}" ++ L1 ++ ... ++ "{}" ++ Ln` succeeds with
`L0 ++ render a1 ++ L1 ++ ... ++ render an ++ Ln`, and the driver uses exactly `n`
arguments. -/
theorem C2_placeholders_filled_between_literals (L0 : List Char) (spans : List (List Char))
    (args : List Value) (h0 : brace_free L0) (hs : ∀ L ∈ spans, brace_free L)
    (hlen : args.length = spans.length) :
    format_call (placeholder_template L0 spans) args
        = .ok (filled_template L0 spans args) ∧
      ∀ ctx : format_context,
        (vformat_run ctx (placeholder_template L0 spans)
          (format_args.capture args.length args (Nat.le_refl _))).map Prod.snd
          = .ok spans.length := by
  constructor
  · rw [format_call_eq, validate_placeholder_template L0 spans h0 hs]
    simp only [Outcome.bind]
    rw [substitute_placeholder_template L0 spans args h0 hs hlen]
    rfl
  · intro ctx
    rw [vformat_run_eq, substitute_placeholder_template L0 spans args h0 hs hlen]
    rfl

theorem C2_placeholders_filled_between_literals_witness :
    (∀ L ∈ [" + ".toList, " = ".toList, []], brace_free L) ∧
      format_call "{} + {} = {}".toList [.int true 4 2, .int true 4 3, .int true 4 5]
        = .ok "2 + 3 = 5".toList :=
  ⟨by decide,
    (C2_placeholders_filled_between_literals [] [" + ".toList, " = ".toList, []]
      [.int true 4 2, .int true 4 3, .int true 4 5] (by decide) (by decide) (by decide)).1⟩

/-- C5. With fewer arguments than placeholders, `format` on
`L0 ++ "{}" ++ L1 ++ ... ++ "{}" ++ Ln` throws the error whose message is
"Not enough arguments for format string", and no text is returned. -/
theorem C5_too_few_arguments_missing_argument (L0 : List Char) (spans : List (List Char))
    (args : List Value) (h0 : brace_free L0) (hs : ∀ L ∈ spans, brace_free L)
    (hlen : args.length < spans.length) :
    format_call (placeholder_template L0 spans) args = .thrown .MissingArgument ∧
      FormatError.MissingArgument.what = "Not enough arguments for format string" := by
  refine ⟨?_, rfl⟩
  rw [format_call_eq, validate_placeholder_template L0 spans h0 hs]
  simp only [Outcome.bind]
  rw [substitute_too_few L0 spans args h0 hs hlen]
  rfl

theorem C5_too_few_arguments_missing_argument_witness :
    [Value.int true 4 1].length < ["-".toList, []].length ∧
      format_call "{}-{}".toList [.int true 4 1] = .thrown .MissingArgument :=
  ⟨by decide,
    (C5_too_few_arguments_missing_argument [] ["-".toList, []] [.int true 4 1]
      (by decide) (by decide) (by decide)).1⟩

theorem scan_braces_escaped (ps : List Piece) (hp : ∀ p ∈ ps, p.plain) (b : Int) :
    scan_braces (escaped_template ps) b = .ok b := by
  induction ps with
  | nil => rfl
  | cons p ps ih =>
    have hps : ∀ q ∈ ps, q.plain := fun q hq => hp q (List.mem_cons_of_mem p hq)
    have hplain := hp p (List.mem_cons_self p ps)
    cases p with
    | text c =>
      simp only [escaped_template, Piece.source, List.cons_append, List.nil_append]
      rw [scan_braces_cons]
      simp only [hplain.1, hplain.2, if_false]
      exact ih hps
    | open_pair =>
      simp only [escaped_template, Piece.source, List.cons_append, List.nil_append]
      rw [scan_braces_cons]
      simp only [List.head?_cons, if_true, List.tail_cons]
      exact ih hps
    | close_pair =>
      simp only [escaped_template, Piece.source, List.cons_append, List.nil_append]
      rw [scan_braces_cons]
      simp only [List.head?_cons, if_true, List.tail_cons, show ¬ ('}' = '{') by decide,
        if_false]
      exact ih hps

theorem substitute_escaped (ps : List Piece) (hp : ∀ p ∈ ps, p.plain) (args : List Value) :
    substitute false (escaped_template ps) args = .ok (unescaped_text ps, 0) := by
  induction ps with
  | nil => simp [escaped_template, substitute, unescaped_text]
  | cons p ps ih =>
    have hps : ∀ q ∈ ps, q.plain := fun q hq => hp q (List.mem_cons_of_mem p hq)
    have hplain := hp p (List.mem_cons_self p ps)
    cases p with
    | text c =>
      simp only [escaped_template, Piece.source, List.cons_append, List.nil_append]
      rw [substitute_cons]
      simp only [hplain.1, hplain.2, if_false]
      rw [ih hps]
      rfl
    | open_pair =>
      simp only [escaped_template, Piece.source, List.cons_append, List.nil_append]
      rw [substitute_cons]
      simp only [List.head?_cons, if_true, List.tail_cons]
      rw [ih hps]
      rfl
    | close_pair =>
      simp only [escaped_template, Piece.source, List.cons_append, List.nil_append]
      rw [substitute_cons]
      simp only [List.head?_cons, if_true, List.tail_cons, show ¬ ('}' = '{') by decide,
        if_false]
      rw [ih hps]
      rfl

/-- C3. A doubled brace is one literal brace.  On a template made of non-brace
characters and the pairs `{{` and `}}`, `format` returns the text with each pair
replaced by the single brace, whatever arguments are passed, and the driver uses none of
them; `format ("{{}}")` is `{}`; and `format ("{{{}}}", x)` is `{`, the rendering of
`x`, `}`. -/
theorem C3_doubled_brace_is_literal (ps : List Piece) (args : List Value) (x : Value)
    (hp : ∀ p ∈ ps, p.plain) :
    format_call (escaped_template ps) args = .ok (unescaped_text ps) ∧
      (∀ ctx : format_context,
        (vformat_run ctx (escaped_template ps)
          (format_args.capture args.length args (Nat.le_refl _))).map Prod.snd = .ok 0) ∧
      format_call "{{}}".toList [] = .ok "{}".toList ∧
      format_call "{{{}}}".toList [x] = .ok ('{' :: render x ++ ['}']) := by
  refine ⟨?_, ?_, by decide, ?_⟩
  · rw [format_call_eq, validate_eq, scan_braces_escaped ps hp 0]
    simp only [Outcome.bind, lt_self_iff_false, if_false, gt_iff_lt]
    rw [substitute_escaped ps hp args]
    rfl
  · intro ctx
    rw [vformat_run_eq, substitute_escaped ps hp args]
    rfl
  · rw [format_call_eq]
    have hv : compile_format_string.validate ⟨"{{{}}}".toList⟩ = .ok () := by decide
    rw [hv]
    simp [Outcome.bind, substitute, Outcome.map]

theorem C3_doubled_brace_is_literal_witness :
    (∀ p ∈ [Piece.open_pair, .text 'a', .close_pair], p.plain) ∧
      format_call "{{a}}".toList [] = .ok "{a}".toList ∧
      format_call "{{{}}}".toList [.int true 4 5] = .ok "{5}".toList :=
  ⟨by decide,
    (C3_doubled_brace_is_literal [.open_pair, .text 'a', .close_pair] []
      (.int true 4 5) (by decide)).1,
    (C3_doubled_brace_is_literal [.open_pair, .text 'a', .close_pair] []
      (.int true 4 5) (by decide)).2.2.2⟩

theorem Outcome.map_eq_ok {α β : Type} {f : α → β} {x : Outcome α} {b : β}
    (h : x.map f = .ok b) : ∃ a, x = .ok a ∧ f a = b := by
  cases x with
  | ok a => exact ⟨a, rfl, by simpa [Outcome.map] using h⟩
  | thrown e => simp [Outcome.map] at h
  | fault => simp [Outcome.map] at h
  | timeout => simp [Outcome.map] at h

theorem filled_template_cons (c : Char) (L0 : List Char) (spans : List (List Char))
    (args : List Value) :
    filled_template (c :: L0) spans args = c :: filled_template L0 spans args := by
  cases spans with
  | nil => simp [filled_template]
  | cons L more => cases args <;> simp [filled_template]

theorem filled_by_cons {c : Char} {L0 : List Char} {spans : List (List Char)}
    {args : List Value} {r : List Char × Nat} (h : filled_by L0 spans args r) :
    filled_by (c :: L0) spans args (c :: r.1, r.2) :=
  ⟨h.1, by rw [filled_template_cons, ← h.2.1], h.2.2⟩

/-- Every template has fixed literal spans such that any successful scan, in either
state, outputs those spans with the arguments rendered in order between them. -/
theorem substitute_spans (t : List Char) :
    ∀ st : Bool, ∃ L0 spans, ∀ args r, substitute st t args = .ok r →
      filled_by L0 spans args r := by
  induction t using list_two_step with
  | hnil =>
    intro st
    refine ⟨[], [], ?_⟩
    intro args r h
    cases st
    · simp only [substitute, Outcome.ok.injEq] at h
      subst h
      exact ⟨Nat.zero_le _, by cases args <;> rfl, rfl⟩
    · simp [substitute] at h
  | hcons c rest ih1 ih2 =>
    intro st
    cases st
    · by_cases ho : c = '{'
      · by_cases ho2 : rest.head? = some '{'
        · obtain ⟨L0, spans, hsp⟩ := ih2 false
          refine ⟨'{' :: L0, spans, ?_⟩
          intro args r h
          rw [substitute_cons] at h
          simp only [ho, if_true, ho2] at h
          obtain ⟨r1, hr1, hr⟩ := Outcome.map_eq_ok h
          subst hr
          exact filled_by_cons (hsp args r1 hr1)
        · obtain ⟨L0, spans, hsp⟩ := ih1 true
          refine ⟨[], L0 :: spans, ?_⟩
          intro args r h
          rw [substitute_cons] at h
          simp only [ho, if_true, ho2, if_false] at h
          cases args with
          | nil => simp [fill_placeholder] at h
          | cons a more =>
            rw [fill_placeholder_cons] at h
            obtain ⟨r1, hr1, hr⟩ := Outcome.map_eq_ok h
            subst hr
            obtain ⟨h1, h2, h3⟩ := hsp more r1 hr1
            refine ⟨by simpa using h1, ?_, by simpa using h3⟩
            simp [filled_template, h2]
      · by_cases hc : c = '}'
        · by_cases hc2 : rest.head? = some '}'
          · obtain ⟨L0, spans, hsp⟩ := ih2 false
            refine ⟨'}' :: L0, spans, ?_⟩
            intro args r h
            rw [substitute_cons] at h
            simp only [ho, if_false, hc, if_true, hc2,
              show ¬ ('}' = '{') by decide] at h
            obtain ⟨r1, hr1, hr⟩ := Outcome.map_eq_ok h
            subst hr
            exact filled_by_cons (hsp args r1 hr1)
          · refine ⟨[], [], ?_⟩
            intro args r h
            rw [substitute_cons] at h
            simp [hc, hc2] at h
        · obtain ⟨L0, spans, hsp⟩ := ih1 false
          refine ⟨c :: L0, spans, ?_⟩
          intro args r h
          rw [substitute_cons] at h
          simp only [ho, if_false, hc] at h
          obtain ⟨r1, hr1, hr⟩ := Outcome.map_eq_ok h
          subst hr
          exact filled_by_cons (hsp args r1 hr1)
    · by_cases hc : c = '}'
      · obtain ⟨L0, spans, hsp⟩ := ih1 false
        refine ⟨L0, spans, ?_⟩
        intro args r h
        simp only [substitute, hc, if_true] at h
        exact hsp args r h
      · obtain ⟨L0, spans, hsp⟩ := ih1 true
        refine ⟨L0, spans, ?_⟩
        intro args r h
        simp only [substitute, hc, if_false] at h
        exact hsp args r h

/-- The call `format ("{}-{}", a, b)`. -/
theorem format_pair (a b : Value) :
    format_call "{}-{}".toList [a, b] = .ok (render a ++ '-' :: render b) := by
  rw [format_call_eq]
  have hv : compile_format_string.validate ⟨"{}-{}".toList⟩ = .ok () := by decide
  rw [hv]
  simp [Outcome.bind, substitute, Outcome.map]

/-- C4. Placeholders are filled left to right with the arguments in call order:
`format ("{}-{}", a, b)` is `render a ++ "-" ++ render b` for all values, and every
template has literal spans `L0, ..., Lm`, fixed by the template alone, such that each
successful call outputs `L0 ++ render a1 ++ L1 ++ ... ++ render am ++ Lm` with
`a1, ..., am` the first `m` arguments, the driver having used exactly `m`. -/
theorem C4_arguments_in_call_order (a b : Value) (t : List Char) :
    format_call "{}-{}".toList [a, b] = .ok (render a ++ '-' :: render b) ∧
      ∃ L0 spans, ∀ (args : List Value) (out : List Char),
        format_call t args = .ok out →
          spans.length ≤ args.length ∧ out = filled_template L0 spans args ∧
          ∀ ctx : format_context,
            (vformat_run ctx t (format_args.capture args.length args (Nat.le_refl _))).map
              Prod.snd = .ok spans.length := by
  constructor
  · exact format_pair a b
  · obtain ⟨L0, spans, hsp⟩ := substitute_spans t false
    refine ⟨L0, spans, ?_⟩
    intro args out h
    rw [format_call_eq] at h
    cases hv : compile_format_string.validate ⟨t⟩ with
    | ok u =>
      rw [hv] at h
      simp only [Outcome.bind] at h
      obtain ⟨r, hr, hout⟩ := Outcome.map_eq_ok h
      obtain ⟨h1, h2, h3⟩ := hsp args r hr
      refine ⟨h1, by rw [← hout, h2], ?_⟩
      intro ctx
      rw [vformat_run_eq, hr]
      simp [Outcome.map, h3]
    | thrown e => rw [hv] at h; simp [Outcome.bind] at h
    | fault => rw [hv] at h; simp [Outcome.bind] at h
    | timeout => rw [hv] at h; simp [Outcome.bind] at h

theorem Outcome.map_ok_of_ok {α β : Type} {f : α → β} {x y : Outcome α}
    (hxy : ∀ a, x = .ok a → y = .ok a) {b : β} (h : x.map f = .ok b) :
    y.map f = .ok b := by
  obtain ⟨a, ha, hf⟩ := Outcome.map_eq_ok h
  rw [hxy a ha]
  simp [Outcome.map, hf]

/-- A successful scan is unchanged by arguments added after the ones supplied. -/
theorem substitute_extra (t : List Char) :
    ∀ (st : Bool) (args extra : List Value) (r : List Char × Nat),
      substitute st t args = .ok r → substitute st t (args ++ extra) = .ok r := by
  induction t using list_two_step with
  | hnil =>
    intro st args extra r h
    cases st
    · simpa [substitute] using h
    · simp [substitute] at h
  | hcons c rest ih1 ih2 =>
    intro st args extra r h
    cases st
    · rw [substitute_cons] at h ⊢
      by_cases ho : c = '{'
      · by_cases ho2 : rest.head? = some '{'
        · simp only [ho, if_true, ho2] at h ⊢
          exact Outcome.map_ok_of_ok (fun a ha => ih2 false args extra a ha) h
        · simp only [ho, if_true, ho2, if_false] at h ⊢
          cases args with
          | nil => simp [fill_placeholder] at h
          | cons a more =>
            rw [List.cons_append, fill_placeholder_cons]
            rw [fill_placeholder_cons] at h
            exact Outcome.map_ok_of_ok (fun x hx => ih1 true more extra x hx) h
      · by_cases hc : c = '}'
        · by_cases hc2 : rest.head? = some '}'
          · simp only [ho, if_false, hc, if_true, hc2,
              show ¬ ('}' = '{') by decide] at h ⊢
            exact Outcome.map_ok_of_ok (fun a ha => ih2 false args extra a ha) h
          · simp [hc, hc2] at h
        · simp only [ho, if_false, hc] at h ⊢
          exact Outcome.map_ok_of_ok (fun a ha => ih1 false args extra a ha) h
    · by_cases hc : c = '}'
      · simp only [substitute, hc, if_true] at h ⊢
        exact ih1 false args extra r h
      · simp only [substitute, hc, if_false] at h ⊢
        exact ih1 true args extra r h

/-- C6. Extra arguments are silently unused: when `format (t, args)` succeeds with
output `o`, so does `format (t, args ++ extra)`, with the same `o`. -/
theorem C6_extra_arguments_unused (t : List Char) (args extra : List Value) (o : List Char)
    (h : format_call t args = .ok o) : format_call t (args ++ extra) = .ok o := by
  rw [format_call_eq] at h ⊢
  cases hv : compile_format_string.validate ⟨t⟩ with
  | ok u =>
    rw [hv] at h
    simp only [Outcome.bind] at h ⊢
    exact Outcome.map_ok_of_ok (fun a ha => substitute_extra t false args extra a ha) h
  | thrown e => rw [hv] at h; simp [Outcome.bind] at h
  | fault => rw [hv] at h; simp [Outcome.bind] at h
  | timeout => rw [hv] at h; simp [Outcome.bind] at h

theorem C6_extra_arguments_unused_witness :
    format_call "{}-{}".toList [.int true 4 1, .bool true] = .ok "1-true".toList ∧
      format_call "{}-{}".toList ([.int true 4 1, .bool true] ++ [.char 'x', .str ['y']])
        = .ok "1-true".toList :=
  ⟨by decide,
    C6_extra_arguments_unused "{}-{}".toList [.int true 4 1, .bool true]
      [.char 'x', .str ['y']] "1-true".toList (by decide)⟩

theorem brace_free_head (s rest : List Char) (hs : brace_free s) (c : Char)
    (hc : c = '{' ∨ c = '}') (hrest : rest.head? ≠ some c) :
    (s ++ rest).head? ≠ some c := by
  cases s with
  | nil => simpa using hrest
  | cons d s =>
    obtain ⟨h1, h2, _⟩ := brace_free_cons hs
    simp only [List.cons_append, List.head?_cons, ne_eq, Option.some.injEq]
    rcases hc with hc | hc <;> subst hc <;> assumption

/-- C7. For a brace-free `s`, validation rejects `"{" ++ s` (unmatched opening brace)
and `s ++ "}"` (unmatched closing brace), it accepts `"{{" ++ s ++ "}}"`, and `format`
on that template with no argument returns `"{" ++ s ++ "}"`. -/
theorem C7_unbalanced_rejected_escaped_accepted (s : List Char) (hs : brace_free s) :
    compile_format_string.validate ⟨'{' :: s⟩ = .thrown .UnbalancedOpen ∧
      compile_format_string.validate ⟨s ++ ['}']⟩ = .thrown .UnbalancedClose ∧
      compile_format_string.validate ⟨'{' :: '{' :: s ++ ['}', '}']⟩ = .ok () ∧
      format_call ('{' :: '{' :: s ++ ['}', '}']) [] = .ok ('{' :: s ++ ['}']) := by
  have hfree := scan_braces_brace_free s [] hs
  rw [List.append_nil] at hfree
  have hvalid : compile_format_string.validate ⟨'{' :: '{' :: s ++ ['}', '}']⟩ = .ok () := by
    rw [validate_eq]
    simp only [List.cons_append]
    rw [scan_braces_cons]
    simp only [List.head?_cons, if_true, List.tail_cons]
    rw [scan_braces_brace_free s _ hs]
    rfl
  refine ⟨?_, ?_, hvalid, ?_⟩
  · have hhead : s.head? ≠ some '{' := by
      have := brace_free_head s [] hs '{' (Or.inl rfl) (by simp)
      simpa using this
    rw [validate_eq, scan_braces_cons]
    simp only [if_true, hhead, if_false]
    rw [hfree]
    rfl
  · rw [validate_eq, scan_braces_brace_free s _ hs]
    rfl
  · rw [format_call_eq, hvalid]
    simp only [Outcome.bind, List.cons_append]
    rw [substitute_cons]
    simp only [List.head?_cons, if_true, List.tail_cons]
    rw [substitute_brace_free s _ hs]
    simp [substitute, Outcome.map]

theorem C7_unbalanced_rejected_escaped_accepted_witness :
    brace_free "abc".toList ∧
      compile_format_string.validate ⟨"\x7babc".toList⟩ = .thrown .UnbalancedOpen ∧
      compile_format_string.validate ⟨"abc\x7d".toList⟩ = .thrown .UnbalancedClose ∧
      compile_format_string.validate ⟨"{{abc}}".toList⟩ = .ok () ∧
      format_call "{{abc}}".toList [] = .ok "{abc}".toList :=
  ⟨by decide, C7_unbalanced_rejected_escaped_accepted "abc".toList (by decide)⟩

theorem unescaped_braces_cons (c : Char) (rest : List Char) :
    unescaped_braces (c :: rest) =
      if c = '{' then
        if rest.head? = some '{' then unescaped_braces rest.tail
        else .opening :: unescaped_braces rest
      else if c = '}' then
        if rest.head? = some '}' then unescaped_braces rest.tail
        else .closing :: unescaped_braces rest
      else unescaped_braces rest := by
  cases rest with
  | nil => simp [unescaped_braces]
  | cons d rest2 => simp [unescaped_braces]

theorem scan_braces_eq_walk (t : List Char) :
    ∀ b : Int, scan_braces t b = walk (unescaped_braces t) b := by
  induction t using list_two_step with
  | hnil => intro b; rfl
  | hcons c rest ih1 ih2 =>
    intro b
    rw [scan_braces_cons, unescaped_braces_cons]
    by_cases ho : c = '{'
    · by_cases ho2 : rest.head? = some '{'
      · simp only [ho, if_true, ho2]
        exact ih2 b
      · simp only [ho, if_true, ho2, if_false, walk]
        exact ih1 (b + 1)
    · by_cases hc : c = '}'
      · by_cases hc2 : rest.head? = some '}'
        · simp only [ho, if_false, hc, if_true, hc2, show ¬ ('}' = '{') by decide]
          exact ih2 b
        · simp only [ho, if_false, hc, if_true, hc2, show ¬ ('}' = '{') by decide, walk]
          rw [ih1 (b - 1)]
      · simp only [ho, if_false, hc]
        exact ih1 b

theorem walk_ok (bs : List Brace) :
    ∀ b : Int, (∀ k, ((bs.take k).count .closing : Int) ≤ b + (bs.take k).count .opening) →
      walk bs b = .ok (b + bs.count .opening - bs.count .closing) := by
  induction bs with
  | nil => intro b _; simp [walk]
  | cons x bs ih =>
    intro b h
    cases x with
    | opening =>
      have hstep : ∀ k, ((bs.take k).count .closing : Int)
          ≤ b + 1 + (bs.take k).count .opening := by
        intro k
        have := h (k + 1)
        simp only [List.take_succ_cons, List.count_cons, beq_iff_eq] at this
        simp at this
        omega
      rw [walk, ih (b + 1) hstep]
      simp only [List.count_cons, beq_iff_eq]
      simp
      omega
    | closing =>
      have h1 := h 1
      simp at h1
      have hstep : ∀ k, ((bs.take k).count .closing : Int)
          ≤ b - 1 + (bs.take k).count .opening := by
        intro k
        have := h (k + 1)
        simp only [List.take_succ_cons, List.count_cons, beq_iff_eq] at this
        simp at this
        omega
      rw [walk, if_neg (by omega), ih (b - 1) hstep]
      simp only [List.count_cons, beq_iff_eq]
      simp
      omega

theorem walk_thrown (bs : List Brace) :
    ∀ b : Int, 0 ≤ b →
      (∃ k, b + ((bs.take k).count .opening : Int) < (bs.take k).count .closing) →
      walk bs b = .thrown .UnbalancedClose := by
  induction bs with
  | nil =>
    intro b hb h
    obtain ⟨k, hk⟩ := h
    simp at hk
    omega
  | cons x bs ih =>
    intro b hb h
    obtain ⟨k, hk⟩ := h
    cases k with
    | zero => simp at hk; omega
    | succ k =>
      cases x with
      | opening =>
        rw [walk]
        apply ih (b + 1) (by omega)
        refine ⟨k, ?_⟩
        simp only [List.take_succ_cons, List.count_cons, beq_iff_eq] at hk
        simp at hk
        omega
      | closing =>
        rw [walk]
        by_cases hneg : b - 1 < 0
        · rw [if_pos hneg]
        · rw [if_neg hneg]
          apply ih (b - 1) (by omega)
          refine ⟨k, ?_⟩
          simp only [List.take_succ_cons, List.count_cons, beq_iff_eq] at hk
          simp at hk
          omega

/-- C8. Reading the template left to right with every `{{` and `}}` pair skipped,
`validate` accepts exactly when no leading part has more unescaped `}` than `{` and the
whole template has equally many; it throws the unmatched-closing-brace error exactly
when some leading part has more `}` than `{`, and the unmatched-opening-brace error
exactly when no leading part does and the `{` outnumber the `}` at the end. -/
theorem C8_validate_accepts_iff_balanced (t : List Char) :
    (compile_format_string.validate ⟨t⟩ = .ok () ↔
        never_negative (unescaped_braces t) ∧
          (unescaped_braces t).count .opening = (unescaped_braces t).count .closing) ∧
      (compile_format_string.validate ⟨t⟩ = .thrown .UnbalancedClose ↔
        ∃ k, ((unescaped_braces t).take k).count .opening
          < ((unescaped_braces t).take k).count .closing) ∧
      (compile_format_string.validate ⟨t⟩ = .thrown .UnbalancedOpen ↔
        never_negative (unescaped_braces t) ∧
          (unescaped_braces t).count .closing < (unescaped_braces t).count .opening) := by
  rw [validate_eq, scan_braces_eq_walk]
  generalize unescaped_braces t = bs
  by_cases hex : ∃ k, (bs.take k).count .opening < (bs.take k).count .closing
  · have hw : walk bs 0 = .thrown .UnbalancedClose := by
      apply walk_thrown bs 0 (le_refl _)
      obtain ⟨k, hk⟩ := hex
      exact ⟨k, by omega⟩
    have hnn : ¬ never_negative bs := by
      intro hn
      obtain ⟨k, hk⟩ := hex
      have := hn k
      omega
    rw [hw]
    simp only [Outcome.bind]
    refine ⟨⟨?_, fun h => absurd h.1 hnn⟩, ⟨fun _ => hex, fun _ => trivial⟩,
      ⟨?_, fun h => absurd h.1 hnn⟩⟩
    · intro h; cases h
    · intro h; cases h
  · have hnn : never_negative bs := by
      intro k
      by_contra hk
      exact hex ⟨k, by omega⟩
    have hw := walk_ok bs 0 (by intro k; have := hnn k; omega)
    have hall : bs.count .closing ≤ bs.count .opening := by
      have := hnn bs.length
      simpa using this
    rw [hw]
    simp only [Outcome.bind]
    by_cases hpos : bs.count .closing < bs.count .opening
    · rw [if_pos (by omega)]
      refine ⟨⟨?_, fun h => ?_⟩, ⟨?_, fun h => absurd h hex⟩,
        ⟨fun _ => ⟨hnn, hpos⟩, fun _ => rfl⟩⟩
      · intro h; cases h
      · have := h.2; omega
      · intro h; cases h
    · rw [if_neg (by omega)]
      refine ⟨⟨fun _ => ⟨hnn, by omega⟩, fun _ => rfl⟩, ⟨?_, fun h => absurd h hex⟩,
        ⟨?_, fun h => absurd h.2 hpos⟩⟩
      · intro h; cases h
      · intro h; cases h

theorem ok_or_unmatched_map {α β : Type} (f : α → β) {x : Outcome α}
    (h : ok_or_unmatched x) : ok_or_unmatched (x.map f) := by
  rcases h with ⟨r, hr⟩ | hr
  · exact Or.inl ⟨f r, by rw [hr]; rfl⟩
  · exact Or.inr (by rw [hr]; rfl)

theorem unescaped_open_count_cons (c : Char) (rest : List Char) :
    unescaped_open_count (c :: rest) =
      if c = '{' then
        if rest.head? = some '{' then unescaped_open_count rest.tail
        else unescaped_open_count rest + 1
      else if c = '}' then
        if rest.head? = some '}' then unescaped_open_count rest.tail
        else unescaped_open_count rest
      else unescaped_open_count rest := by
  unfold unescaped_open_count
  rw [unescaped_braces_cons]
  split_ifs <;> simp

theorem cons_head_tail {rest : List Char} {c : Char} (h : rest.head? = some c) :
    rest = c :: rest.tail := by
  cases rest with
  | nil => simp at h
  | cons d rest2 =>
    simp only [List.head?_cons, Option.some.injEq] at h
    rw [h, List.tail_cons]

theorem in_step_all (t : List Char) : in_step t := by
  induction t using list_two_step with
  | hnil =>
    refine ⟨?_, ?_, ?_⟩
    · intro b b2 args _ _ _
      exact Or.inl ⟨([], 0), by simp [substitute]⟩
    · intro b b2 args hs hb _
      simp only [scan_braces, Outcome.ok.injEq] at hs
      omega
    · intro b b2 args _ _ _
      exact Or.inl ⟨([], 0), by simp [substitute]⟩
  | hcons c rest ih1 ih2 =>
    obtain ⟨L1, P1, M1⟩ := ih1
    obtain ⟨L2, P2, M2⟩ := ih2
    have hL : ∀ (b b2 : Int) (args : List Value), scan_braces (c :: rest) b = .ok b2 →
        b2 ≤ b → unescaped_open_count (c :: rest) ≤ args.length →
        ok_or_unmatched (substitute false (c :: rest) args) := by
      intro b b2 args hs hb ho
      rw [scan_braces_cons] at hs
      rw [unescaped_open_count_cons] at ho
      rw [substitute_cons]
      by_cases ho1 : c = '{'
      · by_cases ho2 : rest.head? = some '{'
        · simp only [ho1, if_true, ho2] at hs ho ⊢
          exact ok_or_unmatched_map _ (L2 b b2 args hs hb ho)
        · simp only [ho1, if_true, ho2, if_false] at hs ho ⊢
          cases args with
          | nil => simp at ho
          | cons a more =>
            rw [fill_placeholder_cons]
            exact ok_or_unmatched_map _
              (P1 (b + 1) b2 more hs (by omega) (by simpa using ho))
      · by_cases hc1 : c = '}'
        · by_cases hc2 : rest.head? = some '}'
          · simp only [ho1, if_false, hc1, if_true, hc2,
              show ¬ ('}' = '{') by decide] at hs ho ⊢
            exact ok_or_unmatched_map _ (L2 b b2 args hs hb ho)
          · simp only [ho1, if_false, hc1, if_true, hc2,
              show ¬ ('}' = '{') by decide]
            exact Or.inr rfl
        · simp only [ho1, if_false, hc1] at hs ho ⊢
          exact ok_or_unmatched_map _ (L1 b b2 args hs hb ho)
    refine ⟨hL, ?_, ?_⟩
    · intro b b2 args hs hb ho
      by_cases hc1 : c = '}'
      · simp only [substitute, hc1, if_true]
        rw [hc1] at hs ho
        exact M1 b b2 args hs hb ho
      · simp only [substitute, hc1, if_false]
        rw [scan_braces_cons] at hs
        rw [unescaped_open_count_cons] at ho
        by_cases ho1 : c = '{'
        · by_cases ho2 : rest.head? = some '{'
          · simp only [ho1, if_true, ho2] at hs ho
            have hrest := cons_head_tail ho2
            rw [hrest]
            simp only [substitute, show ¬ ('{' = '}') by decide, if_false]
            exact P2 b b2 args hs hb ho
          · simp only [ho1, if_true, ho2, if_false] at hs ho
            exact P1 (b + 1) b2 args hs (by omega) (by omega)
        · simp only [ho1, if_false, hc1] at hs ho
          exact P1 b b2 args hs hb ho
    · intro b b2 args hs hb ho
      rw [scan_braces_cons] at hs
      rw [unescaped_open_count_cons] at ho
      simp only [show ¬ ('}' = '{') by decide, if_false, if_true, List.head?_cons,
        Option.some.injEq, List.tail_cons] at hs ho
      by_cases hc1 : c = '}'
      · simp only [hc1, if_true] at hs ho
        rw [hc1, substitute_cons]
        by_cases hc2 : rest.head? = some '}'
        · simp only [show ¬ ('}' = '{') by decide, if_false, if_true, hc2]
          have hrest := cons_head_tail hc2
          rw [hrest] at hs ho
          exact ok_or_unmatched_map _ (M2 b b2 args hs hb ho)
        · simp only [show ¬ ('}' = '{') by decide, if_false, if_true, hc2]
          exact Or.inr rfl
      · simp only [hc1, if_false] at hs ho
        by_cases hneg : b - 1 < 0
        · simp [hneg] at hs
        · simp only [hneg, if_false] at hs
          exact hL (b - 1) b2 args hs (by omega) ho

theorem validate_ok_scan {t : List Char} (hv : compile_format_string.validate ⟨t⟩ = .ok ()) :
    ∃ b2 : Int, scan_braces t 0 = .ok b2 ∧ b2 ≤ 0 := by
  rw [validate_eq] at hv
  cases hs : scan_braces t 0 with
  | ok b2 =>
    rw [hs] at hv
    simp only [Outcome.bind] at hv
    by_cases hpos : b2 > 0
    · simp [hpos] at hv
    · exact ⟨b2, rfl, by omega⟩
  | thrown e => rw [hs] at hv; simp [Outcome.bind] at hv
  | fault => rw [hs] at hv; simp [Outcome.bind] at hv
  | timeout => rw [hs] at hv; simp [Outcome.bind] at hv

/-- C9 does not hold as stated.  `validate` accepts `{ {} }` and `{}}x}` (written with
`\x7d` for its last two braces), the arguments supplied are as many as the unescaped
`{`, and `vformat_to` throws "Unmatched '}'". -/
theorem C9_validated_template_can_fail_in_driver :
    (compile_format_string.validate ⟨"{ {} }".toList⟩ = .ok () ∧
      unescaped_open_count "{ {} }".toList ≤ [Value.int true 4 1, Value.int true 4 2].length ∧
      vformat_to (format_context.create 0) "{ {} }".toList
        (format_args.capture 2 [Value.int true 4 1, Value.int true 4 2] (Nat.le_refl _))
        = .thrown .UnmatchedClosingBrace) ∧
    (compile_format_string.validate ⟨"{}\x7dx\x7d".toList⟩ = .ok () ∧
      unescaped_open_count "{}\x7dx\x7d".toList ≤ [Value.int true 4 1].length ∧
      vformat_to (format_context.create 0) "{}\x7dx\x7d".toList
        (format_args.capture 1 [Value.int true 4 1] (Nat.le_refl _))
        = .thrown .UnmatchedClosingBrace) := by
  decide

/-- C9, amended.  For a template that `validate` accepts and at least as many arguments
as the template has unescaped `{`, `vformat_to` either returns normally or throws
"Unmatched '}'"; it throws neither "Unclosed placeholder" nor "Not enough arguments". -/
theorem C9_validated_template_never_unclosed_nor_missing (t : List Char)
    (args : List Value) (M : Nat) (hM : args.length ≤ M) (ctx : format_context)
    (hv : compile_format_string.validate ⟨t⟩ = .ok ())
    (hargs : unescaped_open_count t ≤ args.length) :
    ((∃ out, vformat_to ctx t (format_args.capture M args hM) = .ok out) ∨
        vformat_to ctx t (format_args.capture M args hM) = .thrown .UnmatchedClosingBrace) ∧
      vformat_to ctx t (format_args.capture M args hM) ≠ .thrown .UnterminatedPlaceholder ∧
      vformat_to ctx t (format_args.capture M args hM) ≠ .thrown .MissingArgument := by
  obtain ⟨b2, hs, hb⟩ := validate_ok_scan hv
  have hsafe := (in_step_all t).1 0 b2 args hs hb hargs
  have hres : ok_or_unmatched (vformat_to ctx t (format_args.capture M args hM)) := by
    rw [vformat_to_eq]
    exact ok_or_unmatched_map _ hsafe
  refine ⟨hres, ?_, ?_⟩
  · intro h
    rcases hres with ⟨r, hr⟩ | hr
    · rw [hr] at h; cases h
    · rw [hr] at h; cases h
  · intro h
    rcases hres with ⟨r, hr⟩ | hr
    · rw [hr] at h; cases h
    · rw [hr] at h; cases h

theorem C9_validated_template_never_unclosed_nor_missing_witness :
    compile_format_string.validate ⟨"{a{b}c}".toList⟩ = .ok () ∧
      unescaped_open_count "{a{b}c}".toList ≤ [Value.bool true, Value.char 'z'].length ∧
      vformat_to (format_context.create 0) "{a{b}c}".toList
        (format_args.capture 2 [Value.bool true, Value.char 'z'] (by decide))
        ≠ .thrown .UnterminatedPlaceholder :=
  ⟨by decide, by decide,
    (C9_validated_template_never_unclosed_nor_missing "{a{b}c}".toList
      [Value.bool true, Value.char 'z'] 2 (by decide) (format_context.create 0)
      (by decide) (by decide)).2.1⟩

theorem getLast_tail {c x : Char} {rest : List Char}
    (h : (c :: rest).getLast? ≠ some x) : rest.getLast? ≠ some x := by
  cases rest with
  | nil => simp
  | cons d rest2 => rwa [List.getLast?_cons_cons] at h

/-- At a placeholder in the literal state, a brace-free text before the closing brace
changes nothing for validation. -/
theorem scan_braces_placeholder_text (s q : List Char) (hs : brace_free s) (b : Int) :
    scan_braces ('{' :: (s ++ '}' :: q)) b = scan_braces ('{' :: '}' :: q) b := by
  have h1 : (s ++ '}' :: q).head? ≠ some '{' :=
    brace_free_head s ('}' :: q) hs '{' (Or.inl rfl) (by simp)
  have h2 : ('}' :: q).head? ≠ some '{' := by simp
  rw [scan_braces_cons, scan_braces_cons]
  simp only [if_true, h1, h2, if_false]
  exact scan_braces_brace_free s _ hs _

/-- The same for the driver, in either state. -/
theorem substitute_placeholder_text (s q : List Char) (hs : brace_free s) (st : Bool)
    (args : List Value) :
    substitute st ('{' :: (s ++ '}' :: q)) args = substitute st ('{' :: '}' :: q) args := by
  cases st
  · have h1 : (s ++ '}' :: q).head? ≠ some '{' :=
      brace_free_head s ('}' :: q) hs '{' (Or.inl rfl) (by simp)
    have h2 : ('}' :: q).head? ≠ some '{' := by simp
    rw [substitute_cons, substitute_cons]
    simp only [if_true, h1, h2, if_false]
    cases args with
    | nil => rfl
    | cons a more =>
      rw [fill_placeholder_cons, fill_placeholder_cons, substitute_inside_brace_free s _ hs]
  · have hstep : ∀ l, substitute true ('{' :: l) args = substitute true l args := by
      intro l
      simp only [substitute, show ¬ ('{' = '}') by decide, if_false]
    rw [hstep, hstep, substitute_inside_brace_free s _ hs]

theorem scan_braces_text_in_placeholder (s q : List Char) (hs : brace_free s)
    (p : List Char) :
    p.getLast? ≠ some '{' → ∀ b : Int,
      scan_braces (p ++ '{' :: (s ++ '}' :: q)) b = scan_braces (p ++ '{' :: '}' :: q) b := by
  induction p using list_two_step with
  | hnil =>
    intro _ b
    exact scan_braces_placeholder_text s q hs b
  | hcons c rest ih1 ih2 =>
    intro hp b
    have hrest := getLast_tail hp
    cases rest with
    | nil =>
      have hc : c ≠ '{' := by simpa using hp
      simp only [List.cons_append, List.nil_append]
      rw [scan_braces_cons c ('{' :: (s ++ '}' :: q)), scan_braces_cons c ('{' :: '}' :: q)]
      simp only [hc, if_false, List.head?_cons, Option.some.injEq,
        show ¬ ('{' = '}') by decide]
      rw [scan_braces_placeholder_text s q hs, scan_braces_placeholder_text s q hs]
    | cons d rest2 =>
      have h1 := ih1 hrest
      have h2 := ih2 (getLast_tail hrest)
      simp only [List.tail_cons] at h2
      simp only [List.cons_append] at h1 ⊢
      rw [scan_braces_cons c (d :: (rest2 ++ '{' :: (s ++ '}' :: q))),
        scan_braces_cons c (d :: (rest2 ++ '{' :: '}' :: q))]
      simp only [List.head?_cons, List.tail_cons, h1, h2]

theorem substitute_text_in_placeholder (s q : List Char) (hs : brace_free s)
    (p : List Char) :
    p.getLast? ≠ some '{' → ∀ (st : Bool) (args : List Value),
      substitute st (p ++ '{' :: (s ++ '}' :: q)) args
        = substitute st (p ++ '{' :: '}' :: q) args := by
  induction p using list_two_step with
  | hnil =>
    intro _ st args
    exact substitute_placeholder_text s q hs st args
  | hcons c rest ih1 ih2 =>
    intro hp st args
    have hrest := getLast_tail hp
    have h1 := ih1 hrest
    cases st
    · cases rest with
      | nil =>
        have hc : c ≠ '{' := by simpa using hp
        simp only [List.cons_append, List.nil_append]
        rw [substitute_cons c ('{' :: (s ++ '}' :: q)), substitute_cons c ('{' :: '}' :: q)]
        simp only [hc, if_false, List.head?_cons, Option.some.injEq,
          show ¬ ('{' = '}') by decide]
        rw [substitute_placeholder_text s q hs]
      | cons d rest2 =>
        have h2 := ih2 (getLast_tail hrest)
        simp only [List.tail_cons] at h2
        simp only [List.cons_append] at h1 ⊢
        rw [substitute_cons c (d :: (rest2 ++ '{' :: (s ++ '}' :: q))),
          substitute_cons c (d :: (rest2 ++ '{' :: '}' :: q))]
        simp only [List.head?_cons, List.tail_cons, h1, h2]
        cases args with
        | nil => rfl
        | cons a more => simp only [fill_placeholder_cons, h1]
    · simp only [List.cons_append, substitute]
      rw [h1, h1]

/-- C10. Text inside a placeholder is accepted and ignored: for a brace-free `s` and a
`p` that does not end with `{`, `format` on `p ++ "{" ++ s ++ "}" ++ q` has the same
result, output or failure, as on `p ++ "{}" ++ q`. -/
theorem C10_text_inside_placeholder_ignored (p q s : List Char) (args : List Value)
    (hs : brace_free s) (hp : p.getLast? ≠ some '{') :
    format_call (p ++ '{' :: (s ++ '}' :: q)) args
      = format_call (p ++ '{' :: '}' :: q) args := by
  rw [format_call_eq, format_call_eq, validate_eq, validate_eq,
    scan_braces_text_in_placeholder s q hs p hp,
    substitute_text_in_placeholder s q hs p hp]

theorem C10_text_inside_placeholder_ignored_witness :
    brace_free ":>8".toList ∧ "x=".toList.getLast? ≠ some '{' ∧
      format_call "x={:>8};".toList [.int true 4 7] = format_call "x={};".toList [.int true 4 7] :=
  ⟨by decide, by decide,
    C10_text_inside_placeholder_ignored "x=".toList ";".toList ":>8".toList [.int true 4 7]
      (by decide) (by decide)⟩

/-! ### Decimal numerals -/

theorem digitChar_spec (d : Nat) (hd : d < 10) :
    (Nat.digitChar d).isDigit = true ∧ (Nat.digitChar d).toNat - '0'.toNat = d ∧
      (Nat.digitChar d = '0' → d = 0) := by
  interval_cases d <;> decide

theorem decimal_value_append (l : List Char) (d : Char) :
    decimal_value (l ++ [d]) = decimal_value l * 10 + (d.toNat - '0'.toNat) := by
  simp [decimal_value, List.foldl_append]

/-- What `Nat.toDigitsCore` adds in front of `ds`: a non-empty run of digits that denotes
`n`, without a leading zero unless it is `0` alone, of the length of `n`. -/
theorem toDigitsCore_spec :
    ∀ (fuel n : Nat) (ds : List Char), n < fuel →
      ∃ l, Nat.toDigitsCore 10 fuel n ds = l ++ ds ∧ l ≠ [] ∧
        (∀ c ∈ l, c.isDigit = true) ∧ decimal_value l = n ∧
        (l.head? = some '0' → l = ['0']) ∧ n < 10 ^ l.length ∧
        (l.length = 1 ∨ 10 ^ (l.length - 1) ≤ n) := by
  intro fuel
  induction fuel with
  | zero => intro n ds h; omega
  | succ fuel ih =>
    intro n ds h
    obtain ⟨hd1, hd2, hd3⟩ := digitChar_spec (n % 10) (Nat.mod_lt n (by decide))
    by_cases hq : n / 10 = 0
    · have hn : n < 10 := by omega
      refine ⟨[Nat.digitChar (n % 10)], ?_, by simp, ?_, ?_, ?_, ?_, Or.inl rfl⟩
      · simp [Nat.toDigitsCore, hq]
      · intro c hc
        simp only [List.mem_singleton] at hc
        rw [hc]; exact hd1
      · simp only [decimal_value, List.foldl_cons, List.foldl_nil, Nat.zero_mul, Nat.zero_add]
        rw [hd2]; omega
      · intro h0
        simp only [List.head?_cons, Option.some.injEq] at h0
        rw [h0]
      · simpa using hn
    · obtain ⟨l, hl, hne, hdig, hval, hhead, hlt, hlow⟩ :=
        ih (n / 10) (Nat.digitChar (n % 10) :: ds) (by omega)
      have hlen : 1 ≤ l.length := by
        cases l with
        | nil => exact absurd rfl hne
        | cons c l => simp
      refine ⟨l ++ [Nat.digitChar (n % 10)], ?_, by simp, ?_, ?_, ?_, ?_, Or.inr ?_⟩
      · simp [Nat.toDigitsCore, hq, hl]
      · intro c hc
        rcases List.mem_append.1 hc with hc | hc
        · exact hdig c hc
        · simp only [List.mem_singleton] at hc
          rw [hc]; exact hd1
      · rw [decimal_value_append, hval, hd2]; omega
      · intro h0
        have hl0 : l.head? = some '0' := by
          cases l with
          | nil => exact absurd rfl hne
          | cons c l => simpa using h0
        have := hhead hl0
        rw [this] at hval
        exact absurd hval.symm (by simpa [decimal_value] using hq)
      · rw [List.length_append, List.length_singleton, Nat.pow_succ]; omega
      · rw [List.length_append, List.length_singleton, Nat.add_sub_cancel]
        rcases hlow with h1 | h1
        · rw [h1]; omega
        · have : 10 ^ l.length = 10 ^ (l.length - 1) * 10 := by
            rw [← Nat.pow_succ]; congr 1; omega
          omega

/-- The digits `std::to_chars` writes for a non-negative number. -/
theorem toDigits_spec (n : Nat) :
    Nat.toDigits 10 n ≠ [] ∧ (∀ c ∈ Nat.toDigits 10 n, c.isDigit = true) ∧
      decimal_value (Nat.toDigits 10 n) = n ∧
      ((Nat.toDigits 10 n).head? = some '0' → Nat.toDigits 10 n = ['0']) ∧
      n < 10 ^ (Nat.toDigits 10 n).length ∧
      ((Nat.toDigits 10 n).length = 1 ∨ 10 ^ ((Nat.toDigits 10 n).length - 1) ≤ n) := by
  obtain ⟨l, hl, h⟩ := toDigitsCore_spec (n + 1) n [] (by omega)
  rw [List.append_nil] at hl
  unfold Nat.toDigits
  rw [hl]
  exact h

theorem toDigits_length_le (n k : Nat) (hk : 1 ≤ k) (hn : n < 10 ^ k) :
    (Nat.toDigits 10 n).length ≤ k := by
  obtain ⟨_, _, _, _, _, hlow⟩ := toDigits_spec n
  rcases hlow with h1 | h1
  · omega
  · by_contra hgt
    have : 10 ^ k ≤ 10 ^ ((Nat.toDigits 10 n).length - 1) :=
      Nat.pow_le_pow_right (by decide) (by omega)
    omega

/-! ### Rendering of single values -/

/-- The call `format ("{}", v)` returns the rendering of `v`. -/
theorem format_single (v : Value) : format_call "{}".toList [v] = .ok (render v) := by
  rw [format_call_eq]
  have hv : compile_format_string.validate ⟨"{}".toList⟩ = .ok () := by decide
  rw [hv]
  simp [Outcome.bind, substitute, Outcome.map]

theorem render_int (is_signed : Bool) (size : Nat) (n : Int) :
    render (.int is_signed size n) = to_chars n := by
  simp [render, format_value_to, format_integer, format_context.append,
    format_context.create, format_context.str]

theorem int_in_range_natAbs {is_signed : Bool} {size : Nat} {n : Int}
    (hn : int_in_range is_signed size n) : n.natAbs < 10 ^ 20 := by
  obtain ⟨hsz, hr⟩ := hn
  rcases hsz with rfl | rfl | rfl | rfl <;> cases is_signed <;> simp at hr <;> omega

theorem read_decimal_digits (ds : List Char) (hds : ∀ c ∈ ds, c.isDigit = true) :
    read_decimal ds = (decimal_value ds : Int) := by
  cases ds with
  | nil => rfl
  | cons c ds =>
    have hc : c ≠ '-' := by
      intro h
      have := hds c (List.mem_cons_self c ds)
      rw [h] at this
      exact absurd this (by decide)
    unfold read_decimal
    split
    · rename_i heq
      simp only [List.cons.injEq] at heq
      exact absurd heq.1 hc
    · rfl

/-- C11. For an integer `n` of a signed or unsigned type of 1, 2, 4 or 8 bytes,
`format ("{}", n)` is a minus sign exactly when `n < 0` followed by a non-empty run of
decimal digits and nothing else, without a leading zero unless the run is `0` alone;
it is `"0"` for zero, reading it back as a decimal numeral gives `n`, and it fits the
32-character buffer of `format_integer`. -/
theorem C11_integer_canonical_decimal (is_signed : Bool) (size : Nat) (n : Int)
    (hn : int_in_range is_signed size n) :
    ∃ digits : List Char,
      format_call "{}".toList [.int is_signed size n]
          = .ok ((if n < 0 then ['-'] else []) ++ digits) ∧
        digits ≠ [] ∧ (∀ c ∈ digits, c.isDigit = true) ∧
        (digits.head? = some '0' → digits = ['0']) ∧
        (n = 0 → digits = ['0']) ∧
        read_decimal ((if n < 0 then ['-'] else []) ++ digits) = n ∧
        ((if n < 0 then ['-'] else []) ++ digits).length ≤ 32 := by
  obtain ⟨hne, hdig, hval, hhead, _, _⟩ := toDigits_spec n.natAbs
  have hlen := toDigits_length_le n.natAbs 20 (by decide) (int_in_range_natAbs hn)
  refine ⟨Nat.toDigits 10 n.natAbs, ?_, hne, hdig, hhead, ?_, ?_, ?_⟩
  · rw [format_single, render_int, to_chars]
    by_cases hneg : n < 0 <;> simp [hneg]
  · intro h0
    rw [h0]
    decide
  · by_cases hneg : n < 0
    · simp only [hneg, if_true, List.singleton_append, read_decimal, hval]
      omega
    · simp only [hneg, if_false, List.nil_append]
      rw [read_decimal_digits _ hdig, hval]
      omega
  · by_cases hneg : n < 0
    · simp only [hneg, if_true, List.singleton_append, List.length_cons]
      omega
    · simp only [hneg, if_false, List.nil_append]
      omega

theorem C11_integer_canonical_decimal_witness :
    int_in_range true 4 (-42) ∧
      format_call "{}".toList [.int true 4 (-42)] = .ok "-42".toList ∧
      ∃ digits : List Char,
        format_call "{}".toList [.int true 4 (-42)]
            = .ok ((if (-42 : Int) < 0 then ['-'] else []) ++ digits) ∧
          digits ≠ [] ∧ (∀ c ∈ digits, c.isDigit = true) ∧
          (digits.head? = some '0' → digits = ['0']) ∧
          ((-42 : Int) = 0 → digits = ['0']) ∧
          read_decimal ((if (-42 : Int) < 0 then ['-'] else []) ++ digits) = -42 ∧
          ((if (-42 : Int) < 0 then ['-'] else []) ++ digits).length ≤ 32 :=
  ⟨by decide, by decide, C11_integer_canonical_decimal true 4 (-42) (by decide)⟩

/-- C12. A boolean renders as the word: `format ("{}", true)` is `true`,
`format ("{}", false)` is `false`, and for every boolean the result is one of these two
texts, the one that names it. -/
theorem C12_bool_renders_as_word (b : Bool) :
    format_call "{}".toList [.bool true] = .ok "true".toList ∧
      format_call "{}".toList [.bool false] = .ok "false".toList ∧
      format_call "{}".toList [.bool b]
        = .ok (if b then "true".toList else "false".toList) ∧
      (format_call "{}".toList [.bool b] = .ok "true".toList ∨
        format_call "{}".toList [.bool b] = .ok "false".toList) ∧
      format_call "{}".toList [.bool b] ≠ .ok "1".toList ∧
      format_call "{}".toList [.bool b] ≠ .ok "0".toList := by
  cases b <;> decide

/-- C13. A string argument is inserted verbatim, whatever characters it holds, and is
not scanned as template text: `format ("{}", s)` is `s`, also for the strings `{}` and
`{{`; a character argument renders as that one character. -/
theorem C13_strings_and_chars_verbatim (s : List Char) (c : Char) :
    format_call "{}".toList [.str s] = .ok s ∧
      format_call "{}".toList [.str "{}".toList] = .ok "{}".toList ∧
      format_call "{}".toList [.str "\x7b\x7b".toList] = .ok "\x7b\x7b".toList ∧
      format_call "{}".toList [.char c] = .ok [c] := by
  refine ⟨?_, by decide, by decide, ?_⟩
  · rw [format_single]
    simp [render, format_value_to, format_context.append, format_context.create,
      format_context.str]
  · rw [format_single]
    simp [render, format_value_to, format_context.push_back, format_context.create,
      format_context.str]

/-! ### Failure leaves no output; the print functions -/

theorem Outcome.map_eq_thrown {α β : Type} {f : α → β} {x : Outcome α} {e : FormatError}
    (h : x.map f = .thrown e) : x = .thrown e := by
  cases x with
  | ok a => simp [Outcome.map] at h
  | thrown e2 => simpa [Outcome.map] using h
  | fault => simp [Outcome.map] at h
  | timeout => simp [Outcome.map] at h

/-- C14. A failing formatting call returns no partial output.  When the substitution
driver throws, `format` ends with that error and holds no text, a call of `format` on
the literal returns no text either, and `fprint_fmt` and `fprintln_fmt` leave the stream
as it was before the call. -/
theorem C14_failure_returns_no_partial_output (t : List Char) (args : List Value)
    (e : FormatError) (ctx : format_context) (os : ostream)
    (hfail : vformat_to ctx t (format_args.capture args.length args (Nat.le_refl _))
      = .thrown e) :
    format ⟨t⟩ args = .thrown e ∧
      (∀ text, format_call t args ≠ .ok text) ∧
      fprint_fmt os ⟨t⟩ args = (os, .thrown e) ∧
      fprintln_fmt os ⟨t⟩ args = (os, .thrown e) := by
  rw [vformat_to_eq] at hfail
  have hsub := Outcome.map_eq_thrown hfail
  have hfmt : format ⟨t⟩ args = .thrown e := by
    rw [format_eq, hsub]
    rfl
  refine ⟨hfmt, ?_, ?_, ?_⟩
  · intro text h
    rw [format_call_eq, hsub] at h
    cases hv : compile_format_string.validate ⟨t⟩ <;> rw [hv] at h <;>
      simp [Outcome.bind, Outcome.map] at h
  · simp [fprint_fmt, hfmt]
  · simp [fprintln_fmt, hfmt]

theorem C14_failure_returns_no_partial_output_witness :
    vformat_to (format_context.create 0) "ab{}-{}".toList
        (format_args.capture 1 [Value.int true 4 1] (Nat.le_refl _))
        = .thrown .MissingArgument ∧
      format ⟨"ab{}-{}".toList⟩ [Value.int true 4 1] = .thrown .MissingArgument ∧
      fprintln_fmt ⟨"kept".toList⟩ ⟨"ab{}-{}".toList⟩ [Value.int true 4 1]
        = (⟨"kept".toList⟩, .thrown .MissingArgument) :=
  ⟨by decide,
    (C14_failure_returns_no_partial_output "ab{}-{}".toList [Value.int true 4 1]
      .MissingArgument (format_context.create 0) ⟨"kept".toList⟩ (by decide)).1,
    (C14_failure_returns_no_partial_output "ab{}-{}".toList [Value.int true 4 1]
      .MissingArgument (format_context.create 0) ⟨"kept".toList⟩ (by decide)).2.2.2⟩

/-- What `stream_out` writes for a value is the text `format_value_to` appends. -/
theorem stream_out_content (os : ostream) (v : Value) :
    (stream_out os v).content = os.content ++ render v := by
  cases v <;>
    simp [stream_out, write_integer, ostream.write, ostream.insert, render, format_value_to,
      format_integer, format_context.append, format_context.push_back,
      format_context.create, format_context.str]

theorem print_impl_content (args : List Value) :
    ∀ os : ostream, (print_impl os args).content = os.content ++ (args.map render).flatten := by
  induction args with
  | nil => intro os; simp [print_impl]
  | cons a rest ih =>
    intro os
    simp [print_impl, ih, stream_out_content, List.append_assoc]

theorem print_with_spaces_impl_content (args : List Value) :
    ∀ os : ostream, (print_with_spaces_impl os args).content
      = os.content ++ List.intercalate [' '] (args.map render) := by
  induction args with
  | nil => intro os; simp [print_with_spaces_impl, List.intercalate, List.intersperse]
  | cons a rest ih =>
    intro os
    cases rest with
    | nil =>
      simp [print_with_spaces_impl, stream_out_content, List.intercalate, List.intersperse]
    | cons b more =>
      have hstep : List.intercalate [' '] ((a :: b :: more).map render)
          = render a ++ ' ' :: List.intercalate [' '] ((b :: more).map render) := by
        simp [List.intercalate, List.intersperse]
      have hunfold : print_with_spaces_impl os (a :: b :: more)
          = print_with_spaces_impl ((stream_out os a).put ' ') (b :: more) := by
        rw [print_with_spaces_impl]
        simp
      rw [hstep, hunfold, ih]
      simp [ostream.put, stream_out_content, List.append_assoc]

/-- C15. The function `fprint_spaced` writes the renderings of its arguments joined by
exactly one space, with no space before the first or after the last, behind what the
stream already held. -/
theorem C15_fprint_spaced_joins_with_single_spaces (os : ostream) (args : List Value)
    (_hne : args ≠ []) (_hd : ∀ a ∈ args, a.direct) :
    (fprint_spaced os args).content
      = os.content ++ List.intercalate [' '] (args.map render) :=
  print_with_spaces_impl_content args os

theorem C15_fprint_spaced_joins_with_single_spaces_witness :
    (∀ a ∈ [Value.bool true, Value.bool false], a.direct) ∧
      (fprint_spaced ⟨[]⟩ [.bool true, .bool false]).content = "true false".toList ∧
      (fprint_spaced ⟨[]⟩ [.char 'A', .char 'B', .char 'C']).content = "A B C".toList :=
  ⟨by decide,
    C15_fprint_spaced_joins_with_single_spaces ⟨[]⟩ [.bool true, .bool false]
      (by decide) (by decide),
    C15_fprint_spaced_joins_with_single_spaces ⟨[]⟩ [.char 'A', .char 'B', .char 'C']
      (by decide) (by decide)⟩

/-- C16. The function `fprint` writes the renderings of its arguments in call order with
nothing between them, behind what the stream already held. -/
theorem C16_fprint_concatenates_renderings (os : ostream) (args : List Value)
    (_hd : ∀ a ∈ args, a.direct) :
    (fprint os args).content = os.content ++ (args.map render).flatten :=
  print_impl_content args os

theorem C16_fprint_concatenates_renderings_witness :
    (∀ a ∈ [Value.bool true, Value.bool false], a.direct) ∧
      (fprint ⟨[]⟩ [.bool true, .bool false]).content = "truefalse".toList ∧
      (fprint ⟨"x=".toList⟩ [.int true 4 42, .str "test".toList]).content
        = "x=42test".toList :=
  ⟨by decide,
    C16_fprint_concatenates_renderings ⟨[]⟩ [.bool true, .bool false] (by decide),
    C16_fprint_concatenates_renderings ⟨"x=".toList⟩ [.int true 4 42, .str "test".toList]
      (by decide)⟩

/-- C17. The line variants add exactly one newline: `fprintln` writes what `fprint`
writes and then a newline, and when `format` succeeds with a text, `fprint_fmt` writes
that text and `fprintln_fmt` writes it followed by a newline. -/
theorem C17_line_variants_append_one_newline (os : ostream) (args fargs : List Value)
    (fmt : compile_format_string) (text : List Char) (hok : format fmt fargs = .ok text) :
    (fprintln os args).content = (fprint os args).content ++ ['\n'] ∧
      fprint_fmt os fmt fargs = (⟨os.content ++ text⟩, .ok ()) ∧
      fprintln_fmt os fmt fargs = (⟨os.content ++ text ++ ['\n']⟩, .ok ()) := by
  refine ⟨rfl, ?_, ?_⟩
  · simp [fprint_fmt, hok, ostream.insert]
  · simp [fprintln_fmt, hok, ostream.insert]

theorem C17_line_variants_append_one_newline_witness :
    format ⟨"{} + {} = {}".toList⟩ [.int true 4 2, .int true 4 3, .int true 4 5]
        = .ok "2 + 3 = 5".toList ∧
      (fprintln ⟨[]⟩ [.str "Hello, World!".toList]).content = "Hello, World!\n".toList ∧
      fprintln_fmt ⟨[]⟩ ⟨"{} + {} = {}".toList⟩ [.int true 4 2, .int true 4 3, .int true 4 5]
        = (⟨"2 + 3 = 5\n".toList⟩, .ok ()) :=
  ⟨by decide,
    (C17_line_variants_append_one_newline ⟨[]⟩ [.str "Hello, World!".toList]
      [.int true 4 2, .int true 4 3, .int true 4 5] ⟨"{} + {} = {}".toList⟩
      "2 + 3 = 5".toList (by decide)).1,
    (C17_line_variants_append_one_newline ⟨[]⟩ [.str "Hello, World!".toList]
      [.int true 4 2, .int true 4 3, .int true 4 5] ⟨"{} + {} = {}".toList⟩
      "2 + 3 = 5".toList (by decide)).2.2⟩

/-! ### Size estimates -/

theorem int_in_range_bound {is_signed : Bool} {size : Nat} {n : Int}
    (hn : int_in_range is_signed size n) :
    n.natAbs < 10 ^ (3 * size) ∧ 1 ≤ 3 * size ∧ (is_signed = false → 0 ≤ n) := by
  obtain ⟨hsz, hr⟩ := hn
  rcases hsz with rfl | rfl | rfl | rfl <;> cases is_signed <;> simp at hr ⊢ <;> omega

theorem format_value_to_size (ctx : format_context) (v : Value) :
    (format_value_to ctx v).size = ctx.size + (render v).length := by
  rw [format_value_to_eq]
  simp [format_context.append, format_context.size]

/-- The rendering of a directly supported value is no longer than the estimate of its
handle. -/
theorem render_length_le_estimated_size (v : Value) (hd : v.direct) :
    (render v).length ≤ (format_arg.mk v).estimated_size := by
  cases v with
  | bool b => cases b <;> decide
  | int is_signed size n =>
    obtain ⟨hlt, hpos, hsign⟩ := int_in_range_bound hd
    have hlen := toDigits_length_le n.natAbs (3 * size) hpos hlt
    rw [render_int, to_chars]
    cases is_signed with
    | false =>
      have hnn : ¬ n < 0 := by have := hsign rfl; omega
      simp only [hnn, if_false, format_arg.estimated_size]
      simp only [Bool.false_eq_true, if_false]
      omega
    | true =>
      simp only [format_arg.estimated_size, if_true]
      by_cases hneg : n < 0
      · simp only [hneg, if_true, List.length_cons]; omega
      · simp only [hneg, if_false]; omega
  | char c =>
    simp [render, format_value_to, format_context.push_back, format_context.create,
      format_context.str, format_arg.estimated_size, char_is_signed]
  | str s =>
    simp [render, format_value_to, format_context.append, format_context.create,
      format_context.str, format_arg.estimated_size]
  | other s => exact absurd hd (by simp [Value.direct])

/-- C18. The size estimate of a handle is an upper bound on what rendering appends:
for a `bool`, an integer of a signed or unsigned type of 1, 2, 4 or 8 bytes, a character
or a string, `format_value_to` appends exactly the characters of the rendering and their
number is at most `estimated_size ()`. -/
theorem C18_estimate_bounds_rendered_length (v : Value) (ctx : format_context)
    (hd : v.direct) :
    (format_value_to ctx v).size = ctx.size + (render v).length ∧
      (render v).length ≤ (format_arg.mk v).estimated_size := by
  refine ⟨format_value_to_size ctx v, ?_⟩
  cases v with
  | bool b => cases b <;> decide
  | int is_signed size n =>
    obtain ⟨hlt, hpos, hsign⟩ := int_in_range_bound hd
    have hlen := toDigits_length_le n.natAbs (3 * size) hpos hlt
    rw [render_int, to_chars]
    cases is_signed with
    | false =>
      have hnn : ¬ n < 0 := by have := hsign rfl; omega
      simp only [hnn, if_false, format_arg.estimated_size]
      simp only [Bool.false_eq_true, if_false]
      omega
    | true =>
      simp only [format_arg.estimated_size, if_true]
      by_cases hneg : n < 0
      · simp only [hneg, if_true, List.length_cons]; omega
      · simp only [hneg, if_false]; omega
  | char c =>
    simp [render, format_value_to, format_context.push_back, format_context.create,
      format_context.str, format_arg.estimated_size, char_is_signed]
  | str s =>
    simp [render, format_value_to, format_context.append, format_context.create,
      format_context.str, format_arg.estimated_size]
  | other s => exact absurd hd (by simp [Value.direct])

theorem C18_estimate_bounds_rendered_length_witness :
    (Value.int true 8 (-9223372036854775808)).direct ∧
      render (Value.int true 8 (-9223372036854775808)) = "-9223372036854775808".toList ∧
      (render (Value.int true 8 (-9223372036854775808))).length
        ≤ (format_arg.mk (Value.int true 8 (-9223372036854775808))).estimated_size ∧
      (render (Value.int false 1 255)).length
        ≤ (format_arg.mk (Value.int false 1 255)).estimated_size :=
  ⟨by decide, by decide,
    (C18_estimate_bounds_rendered_length (Value.int true 8 (-9223372036854775808))
      (format_context.create 0) (by decide)).2,
    (C18_estimate_bounds_rendered_length (Value.int false 1 255)
      (format_context.create 0) (by decide)).2⟩

theorem estimate_loop_sum (args : List Value) :
    ∀ total, total < 2 ^ 64 →
      estimate_loop (args.map fun v => some ⟨v⟩) total
        = .ok ((total + estimated_sizes_sum args) % 2 ^ 64) := by
  induction args with
  | nil =>
    intro total h
    simp only [List.map_nil, estimate_loop, estimated_sizes_sum, List.sum_nil, Nat.add_zero]
    rw [Nat.mod_eq_of_lt h]
  | cons a rest ih =>
    intro total h
    simp only [List.map_cons, estimate_loop]
    rw [ih _ (Nat.mod_lt _ (by decide))]
    simp only [estimated_sizes_sum, List.map_cons, List.sum_cons]
    congr 1
    omega

/-- The value of `estimate_total_size ()`: the sum of the estimates of the captured
handles, as a `std::size_t`. -/
theorem capture_estimate_total (M : Nat) (args : List Value) (h : args.length ≤ M) :
    (format_args.capture M args h).estimate_total_size
      = .ok (estimated_sizes_sum args % 2 ^ 64) := by
  unfold format_args.estimate_total_size format_args.capture
  simp only
  rw [List.take_left' (by simp), estimate_loop_sum args 0 (by decide), Nat.zero_add]

theorem vformat_to_reserved {M : Nat} {args : List Value} {h : args.length ≤ M}
    {ctx out : format_context} {t : List Char}
    (hok : vformat_to ctx t (format_args.capture M args h) = .ok out) :
    out.reserved = ctx.reserved := by
  rw [vformat_to_eq] at hok
  obtain ⟨r, _, hr⟩ := Outcome.map_eq_ok hok
  rw [← hr]
  rfl

/-- C19. When the template length plus the sum of the estimates fits a `std::size_t`,
`estimate_total_size ()` is the sum of `estimated_size ()` over exactly the handles
captured (whatever the capacity, and `0` for no argument).  The body of `format` is the
driver run on the context constructed, empty, with a reservation of the template length
plus that sum; the context `format` takes its result from still has that reservation,
so it was reserved once, before the scan. -/
theorem C19_estimate_total_and_single_reservation (t : List Char) (args : List Value)
    (M : Nat) (hM : args.length ≤ M)
    (hfit : t.length + estimated_sizes_sum args < 2 ^ 64) :
    (format_args.capture M args hM).estimate_total_size = .ok (estimated_sizes_sum args) ∧
      (format_args.capture M [] (Nat.zero_le M)).estimate_total_size = .ok 0 ∧
      format_buffer ⟨t⟩ args
        = vformat_to (format_context.create (t.length + estimated_sizes_sum args)) t
            (format_args.capture args.length args (Nat.le_refl _)) ∧
      (format_context.create (t.length + estimated_sizes_sum args)).m_buffer = [] ∧
      (format_context.create (t.length + estimated_sizes_sum args)).reserved
        = t.length + estimated_sizes_sum args ∧
      (∀ final, format_buffer ⟨t⟩ args = .ok final →
        final.reserved = t.length + estimated_sizes_sum args) ∧
      format ⟨t⟩ args = (format_buffer ⟨t⟩ args).map format_context.str := by
  have hsum : estimated_sizes_sum args % 2 ^ 64 = estimated_sizes_sum args :=
    Nat.mod_eq_of_lt (by omega)
  have hbody : format_buffer ⟨t⟩ args
      = vformat_to (format_context.create (t.length + estimated_sizes_sum args)) t
          (format_args.capture args.length args (Nat.le_refl _)) := by
    unfold format_buffer
    simp only [capture_estimate_total, hsum, Outcome.bind, compile_format_string.size,
      compile_format_string.data, Nat.mod_eq_of_lt hfit]
  refine ⟨?_, ?_, hbody, rfl, rfl, ?_, rfl⟩
  · rw [capture_estimate_total, hsum]
  · rw [capture_estimate_total]
    rfl
  · intro final hfinal
    rw [hbody] at hfinal
    rw [vformat_to_reserved hfinal]
    rfl

theorem C19_estimate_total_and_single_reservation_witness :
    "{}-{}".toList.length + estimated_sizes_sum [Value.int true 4 1, Value.str "ab".toList]
        < 2 ^ 64 ∧
      (format_args.capture 16 [Value.int true 4 1, Value.str "ab".toList]
        (by decide)).estimate_total_size = .ok 16 ∧
      format_buffer ⟨"{}-{}".toList⟩ [Value.int true 4 1, Value.str "ab".toList]
        = .ok ⟨"1-ab".toList, 21⟩ ∧
      (∀ final,
        format_buffer ⟨"{}-{}".toList⟩ [Value.int true 4 1, Value.str "ab".toList]
          = .ok final →
        final.reserved = "{}-{}".toList.length
          + estimated_sizes_sum [Value.int true 4 1, Value.str "ab".toList]) :=
  ⟨by decide,
    (C19_estimate_total_and_single_reservation "{}-{}".toList
      [Value.int true 4 1, Value.str "ab".toList] 16 (by decide) (by decide)).1,
    by decide,
    (C19_estimate_total_and_single_reservation "{}-{}".toList
      [Value.int true 4 1, Value.str "ab".toList] 16 (by decide) (by decide)).2.2.2.2.2.1⟩

/-! ### Argument capture -/

theorem Outcome.map_completes {α β : Type} (f : α → β) {x : Outcome α}
    (h : x ≠ .fault ∧ x ≠ .timeout) : x.map f ≠ .fault ∧ x.map f ≠ .timeout := by
  cases x with
  | ok a => exact ⟨by simp [Outcome.map], by simp [Outcome.map]⟩
  | thrown e => exact ⟨by simp [Outcome.map], by simp [Outcome.map]⟩
  | fault => exact absurd rfl h.1
  | timeout => exact absurd rfl h.2

/-- The list-recursive scan ends by returning or by throwing. -/
theorem substitute_completes (t : List Char) :
    ∀ (st : Bool) (args : List Value),
      substitute st t args ≠ .fault ∧ substitute st t args ≠ .timeout := by
  induction t using list_two_step with
  | hnil =>
    intro st args
    cases st <;> simp [substitute]
  | hcons c rest ih1 ih2 =>
    intro st args
    cases st
    · rw [substitute_cons]
      by_cases ho : c = '{'
      · by_cases ho2 : rest.head? = some '{'
        · simp only [ho, if_true, ho2]
          exact Outcome.map_completes _ (ih2 false args)
        · simp only [ho, if_true, ho2, if_false]
          cases args with
          | nil => simp [fill_placeholder]
          | cons a more =>
            rw [fill_placeholder_cons]
            exact Outcome.map_completes _ (ih1 true more)
      · by_cases hc : c = '}'
        · by_cases hc2 : rest.head? = some '}'
          · simp only [ho, if_false, hc, if_true, hc2, show ¬ ('}' = '{') by decide]
            exact Outcome.map_completes _ (ih2 false args)
          · simp [hc, hc2]
        · simp only [ho, if_false, hc]
          exact Outcome.map_completes _ (ih1 false args)
    · by_cases hc : c = '}'
      · simp only [substitute, hc, if_true]
        exact ih1 false args
      · simp only [substitute, hc, if_false]
        exact ih1 true args

/-- A handle table whose count exceeds its filled slots makes the driver dereference a
null handle: the fault is a possible outcome of `vformat_to` on such a table. -/
theorem vformat_to_null_slot_faults :
    vformat_to (format_context.create 0) "{}".toList
      (⟨[none], 1⟩ : format_args 1) = .fault := by
  decide

/-- C20. Argument capture keeps order and bounds.  A `format_args` built from `n`
arguments with `n ≤ MaxArgs` has `MaxArgs` slots and `size () = n`; `get (i)` is the
handle of the `i`-th argument for `i < n` and the null handle for `i ≥ n`; and on such
a table neither `vformat_to` nor `estimate_total_size` dereferences a null handle: they
end by returning or by throwing. -/
theorem C20_capture_keeps_order_and_bounds (M : Nat) (args : List Value)
    (hM : args.length ≤ M) (ctx : format_context) (fmt : List Char) :
    (format_args.capture M args hM).size = args.length ∧
      (format_args.capture M args hM).m_args.length = M ∧
      (∀ (i : Nat) (hi : i < args.length),
        (format_args.capture M args hM).get i = some ⟨args[i]⟩) ∧
      (∀ i : Nat, args.length ≤ i → (format_args.capture M args hM).get i = none) ∧
      vformat_to ctx fmt (format_args.capture M args hM) ≠ .fault ∧
      vformat_to ctx fmt (format_args.capture M args hM) ≠ .timeout ∧
      (format_args.capture M args hM).estimate_total_size ≠ .fault := by
  refine ⟨rfl, ?_, ?_, ?_, ?_, ?_, ?_⟩
  · simp only [format_args.capture, List.length_append, List.length_map,
      List.length_replicate]
    omega
  · intro i hi
    rw [capture_get, List.getElem?_eq_getElem hi]
    rfl
  · intro i hi
    rw [capture_get, List.getElem?_eq_none hi]
    rfl
  · rw [vformat_to_eq]
    exact (Outcome.map_completes _ (substitute_completes fmt false args)).1
  · rw [vformat_to_eq]
    exact (Outcome.map_completes _ (substitute_completes fmt false args)).2
  · rw [capture_estimate_total]
    intro h
    cases h

theorem C20_capture_keeps_order_and_bounds_witness :
    [Value.bool true, Value.char 'z'].length ≤ 16 ∧
      (format_args.capture 16 [Value.bool true, Value.char 'z'] (by decide)).size = 2 ∧
      (format_args.capture 16 [Value.bool true, Value.char 'z'] (by decide)).get 1
        = some ⟨Value.char 'z'⟩ ∧
      (format_args.capture 16 [Value.bool true, Value.char 'z'] (by decide)).get 2 = none ∧
      vformat_to (format_context.create 0) "{}{}{}".toList
        (format_args.capture 16 [Value.bool true, Value.char 'z'] (by decide)) ≠ .fault :=
  ⟨by decide, by decide, by decide, by decide,
    (C20_capture_keeps_order_and_bounds 16 [Value.bool true, Value.char 'z'] (by decide)
      (format_context.create 0) "{}{}{}".toList).2.2.2.2.1⟩

/-! ### Driver errors on unvalidated and validated templates -/

theorem Outcome.map_ne_thrown {α β : Type} (f : α → β) {x : Outcome α} {e : FormatError}
    (h : x ≠ .thrown e) : x.map f ≠ .thrown e :=
  fun hm => h (Outcome.map_eq_thrown hm)

theorem closes_in_step_all (t : List Char) : closes_in_step t := by
  induction t using list_two_step with
  | hnil =>
    refine ⟨?_, ?_, ?_⟩
    · intro b b2 args _ _
      simp [substitute]
    · intro b b2 args hs hb
      simp only [scan_braces, Outcome.ok.injEq] at hs
      omega
    · intro b b2 args _ _
      simp [substitute]
  | hcons c rest ih1 ih2 =>
    obtain ⟨L1, P1, M1⟩ := ih1
    obtain ⟨L2, P2, M2⟩ := ih2
    have hL : ∀ (b b2 : Int) (args : List Value), scan_braces (c :: rest) b = .ok b2 →
        b2 ≤ b → substitute false (c :: rest) args ≠ .thrown .UnterminatedPlaceholder := by
      intro b b2 args hs hb
      rw [scan_braces_cons] at hs
      rw [substitute_cons]
      by_cases ho1 : c = '{'
      · by_cases ho2 : rest.head? = some '{'
        · simp only [ho1, if_true, ho2] at hs ⊢
          exact Outcome.map_ne_thrown _ (L2 b b2 args hs hb)
        · simp only [ho1, if_true, ho2, if_false] at hs ⊢
          cases args with
          | nil => simp [fill_placeholder]
          | cons a more =>
            rw [fill_placeholder_cons]
            exact Outcome.map_ne_thrown _ (P1 (b + 1) b2 more hs (by omega))
      · by_cases hc1 : c = '}'
        · by_cases hc2 : rest.head? = some '}'
          · simp only [ho1, if_false, hc1, if_true, hc2,
              show ¬ ('}' = '{') by decide] at hs ⊢
            exact Outcome.map_ne_thrown _ (L2 b b2 args hs hb)
          · simp [hc1, hc2]
        · simp only [ho1, if_false, hc1] at hs ⊢
          exact Outcome.map_ne_thrown _ (L1 b b2 args hs hb)
    refine ⟨hL, ?_, ?_⟩
    · intro b b2 args hs hb
      by_cases hc1 : c = '}'
      · simp only [substitute, hc1, if_true]
        rw [hc1] at hs
        exact M1 b b2 args hs hb
      · simp only [substitute, hc1, if_false]
        rw [scan_braces_cons] at hs
        by_cases ho1 : c = '{'
        · by_cases ho2 : rest.head? = some '{'
          · simp only [ho1, if_true, ho2] at hs
            have hrest := cons_head_tail ho2
            rw [hrest]
            simp only [substitute, show ¬ ('{' = '}') by decide, if_false]
            exact P2 b b2 args hs hb
          · simp only [ho1, if_true, ho2, if_false] at hs
            exact P1 (b + 1) b2 args hs (by omega)
        · simp only [ho1, if_false, hc1] at hs
          exact P1 b b2 args hs hb
    · intro b b2 args hs hb
      rw [scan_braces_cons] at hs
      simp only [show ¬ ('}' = '{') by decide, if_false, if_true, List.head?_cons,
        Option.some.injEq, List.tail_cons] at hs
      by_cases hc1 : c = '}'
      · simp only [hc1, if_true] at hs
        rw [hc1, substitute_cons]
        by_cases hc2 : rest.head? = some '}'
        · simp only [show ¬ ('}' = '{') by decide, if_false, if_true, hc2]
          have hrest := cons_head_tail hc2
          rw [hrest] at hs
          exact Outcome.map_ne_thrown _ (M2 b b2 args hs hb)
        · simp [hc2]
      · simp only [hc1, if_false] at hs
        by_cases hneg : b - 1 < 0
        · simp [hneg] at hs
        · simp only [hneg, if_false] at hs
          exact hL (b - 1) b2 args hs (by omega)

/-- C22. Validation rules out unterminated placeholders: on a template that `validate`
accepts, with any arguments and any capacity, `vformat_to` does not throw
"Unclosed placeholder", and neither does `format`. -/
theorem C22_validated_template_never_unclosed (t : List Char) (args : List Value)
    (M : Nat) (hM : args.length ≤ M) (ctx : format_context)
    (hv : compile_format_string.validate ⟨t⟩ = .ok ()) :
    vformat_to ctx t (format_args.capture M args hM) ≠ .thrown .UnterminatedPlaceholder ∧
      format_call t args ≠ .thrown .UnterminatedPlaceholder := by
  obtain ⟨b2, hs, hb⟩ := validate_ok_scan hv
  have hsub := (closes_in_step_all t).1 0 b2 args hs hb
  constructor
  · rw [vformat_to_eq]
    exact Outcome.map_ne_thrown _ hsub
  · rw [format_call_eq, hv]
    simp only [Outcome.bind]
    exact Outcome.map_ne_thrown _ hsub

theorem C22_validated_template_never_unclosed_witness :
    compile_format_string.validate ⟨"{a{b}c}{}".toList⟩ = .ok () ∧
      vformat_to (format_context.create 0) "{a{b}c}{}".toList
        (format_args.capture 2 [Value.bool true, Value.char 'z'] (Nat.le_refl _))
        ≠ .thrown .UnterminatedPlaceholder ∧
      vformat_to (format_context.create 0) "{a{b}c}{}".toList
        (format_args.capture 2 [Value.bool true, Value.char 'z'] (Nat.le_refl _))
        = .thrown .UnmatchedClosingBrace ∧
      compile_format_string.validate ⟨"x={:>8};{}".toList⟩ = .ok () ∧
      vformat_to (format_context.create 0) "x={:>8};{}".toList
        (format_args.capture 2 [Value.bool true, Value.char 'z'] (Nat.le_refl _))
        ≠ .thrown .UnterminatedPlaceholder ∧
      vformat_to (format_context.create 0) "x={:>8};{}".toList
        (format_args.capture 2 [Value.bool true, Value.char 'z'] (Nat.le_refl _))
        = .ok ⟨"x=true;z".toList, 0⟩ ∧
      vformat_to (format_context.create 0) "x=\x7b:>8;".toList
        (format_args.capture 2 [Value.bool true, Value.char 'z'] (Nat.le_refl _))
        = .thrown .UnterminatedPlaceholder :=
  ⟨by decide,
    (C22_validated_template_never_unclosed "{a{b}c}{}".toList
      [Value.bool true, Value.char 'z'] 2 (Nat.le_refl _) (format_context.create 0)
      (by decide)).1,
    by decide, by decide,
    (C22_validated_template_never_unclosed "x={:>8};{}".toList
      [Value.bool true, Value.char 'z'] 2 (Nat.le_refl _) (format_context.create 0)
      (by decide)).1,
    by decide, by decide⟩

theorem Outcome.map_pair_id {x : Outcome (List Char × Nat)} :
    x.map (fun r => (([] : List Char) ++ r.1, 0 + r.2)) = x := by
  cases x <;> simp [Outcome.map]

/-- A successful scan of `t1` goes on, when more template follows, as a fresh scan of
what follows with the arguments after those `t1` used. -/
theorem substitute_append (t1 : List Char) :
    ∀ (st : Bool) (a1 : List Value) (r1 : List Char × Nat),
      substitute st t1 a1 = .ok r1 → ∀ (t2 : List Char) (a2 : List Value),
        substitute st (t1 ++ t2) (a1.take r1.2 ++ a2)
          = (substitute false t2 a2).map fun r => (r1.1 ++ r.1, r1.2 + r.2) := by
  induction t1 using list_two_step with
  | hnil =>
    intro st a1 r1 h t2 a2
    cases st
    · simp only [substitute, Outcome.ok.injEq] at h
      subst h
      simp only [List.nil_append, List.take_zero]
      exact Outcome.map_pair_id.symm
    · simp [substitute] at h
  | hcons c rest ih1 ih2 =>
    intro st a1 r1 h t2 a2
    cases st
    · cases rest with
      | nil =>
        rw [substitute_cons] at h
        by_cases ho : c = '{'
        · simp only [ho, if_true, List.head?_nil, if_false] at h
          cases a1 with
          | nil => simp [fill_placeholder] at h
          | cons a more => simp [fill_placeholder, substitute, Outcome.map] at h
        · by_cases hc : c = '}'
          · simp [hc] at h
          · simp only [ho, if_false, hc, substitute, Outcome.map, Outcome.ok.injEq] at h
            subst h
            simp only [List.cons_append, List.nil_append, List.take_zero]
            rw [substitute_cons]
            simp only [ho, if_false, hc]
            congr 1
            funext r
            simp
      | cons d rest2 =>
        simp only [List.tail_cons] at ih2
        rw [substitute_cons] at h
        simp only [List.cons_append]
        rw [substitute_cons c (d :: (rest2 ++ t2))]
        simp only [List.head?_cons, List.tail_cons] at h ⊢
        by_cases ho : c = '{'
        · by_cases ho2 : some d = some '{'
          · simp only [ho, if_true, ho2] at h ⊢
            obtain ⟨r, hr, hr1⟩ := Outcome.map_eq_ok h
            subst hr1
            rw [ih2 false a1 r hr t2 a2, Outcome.map_map]
            congr 1
          · simp only [ho, if_true, ho2, if_false] at h ⊢
            cases a1 with
            | nil => simp [fill_placeholder] at h
            | cons a more =>
              rw [fill_placeholder_cons] at h
              obtain ⟨r, hr, hr1⟩ := Outcome.map_eq_ok h
              subst hr1
              have := ih1 true more r hr t2 a2
              simp only [List.cons_append] at this
              simp only [List.take_succ_cons, List.cons_append, fill_placeholder_cons]
              rw [this, Outcome.map_map]
              congr 1
              funext x
              simp only [List.append_assoc, Prod.mk.injEq, true_and]
              omega
        · by_cases hc : c = '}'
          · by_cases hc2 : some d = some '}'
            · simp only [ho, if_false, hc, if_true, hc2,
                show ¬ ('}' = '{') by decide] at h ⊢
              obtain ⟨r, hr, hr1⟩ := Outcome.map_eq_ok h
              subst hr1
              rw [ih2 false a1 r hr t2 a2, Outcome.map_map]
              congr 1
            · simp [hc, hc2] at h
          · simp only [ho, if_false, hc] at h ⊢
            obtain ⟨r, hr, hr1⟩ := Outcome.map_eq_ok h
            subst hr1
            have := ih1 false a1 r hr t2 a2
            simp only [List.cons_append] at this
            rw [this, Outcome.map_map]
            congr 1
    · simp only [List.cons_append]
      by_cases hc : c = '}'
      · simp only [substitute, hc, if_true] at h ⊢
        exact ih1 false a1 r1 h t2 a2
      · simp only [substitute, hc, if_false] at h ⊢
        exact ih1 true a1 r1 h t2 a2

theorem format_context.append_cancel {ctx : format_context} {x y : List Char}
    (h : ctx.append x = ctx.append y) : x = y := by
  have hb : (ctx.append x).m_buffer = (ctx.append y).m_buffer := by rw [h]
  exact List.append_cancel_left hb

/-- A run of `vformat_to` on `t1` that returns with output `o1` after using all of `a1`,
read as a statement on the list-recursive scan. -/
theorem vformat_run_ok_scan {ctx : format_context} {t1 o1 : List Char} {a1 : List Value}
    (h : vformat_run ctx t1 (format_args.capture a1.length a1 (Nat.le_refl _))
      = .ok (ctx.append o1, a1.length)) :
    substitute false t1 a1 = .ok (o1, a1.length) := by
  rw [vformat_run_eq] at h
  obtain ⟨r, hr, hr1⟩ := Outcome.map_eq_ok h
  simp only [Prod.mk.injEq] at hr1
  rw [hr, ← format_context.append_cancel hr1.1, ← hr1.2]

/-- After a prefix scanned with all of `a1` used, the scan of the whole template is
the scan of the rest with the further arguments, behind the output of the prefix. -/
theorem substitute_after_prefix {p o : List Char} {a1 : List Value}
    (hp : substitute false p a1 = .ok (o, a1.length)) (rest : List Char)
    (a2 : List Value) :
    substitute false (p ++ rest) (a1 ++ a2)
      = (substitute false rest a2).map fun r => (o ++ r.1, a1.length + r.2) := by
  have := substitute_append p false a1 (o, a1.length) hp rest a2
  simpa [List.take_length] using this

theorem substitute_inside_no_close (q : List Char) (hq : '}' ∉ q) (args : List Value) :
    substitute true q args = .thrown .UnterminatedPlaceholder := by
  induction q with
  | nil => simp [substitute]
  | cons c q ih =>
    have hc : c ≠ '}' := fun h => hq (by rw [h]; exact List.mem_cons_self _ _)
    simp only [substitute, hc, if_false]
    exact ih fun h => hq (List.mem_cons_of_mem c h)

/-- C21. The driver on an unvalidated template, after a part `p` it has scanned
through using the arguments `a1`: a `}` not followed by another `}` throws
"Unmatched '}'"; a `{` not followed by another `{`, with an argument available and no
`}` after it, throws "Unclosed placeholder"; and such a `{` with no argument left throws
"Not enough arguments", whether or not a `}` follows, the argument check coming first. -/
theorem C21_driver_reports_brace_defects (p q o : List Char) (a1 a2 : List Value)
    (a : Value) (ctx : format_context)
    (hp : vformat_run ctx p (format_args.capture a1.length a1 (Nat.le_refl _))
      = .ok (ctx.append o, a1.length)) :
    (q.head? ≠ some '}' →
        vformat_to ctx (p ++ '}' :: q)
          (format_args.capture (a1 ++ a2).length (a1 ++ a2) (Nat.le_refl _))
          = .thrown .UnmatchedClosingBrace) ∧
      (q.head? ≠ some '{' → '}' ∉ q →
        vformat_to ctx (p ++ '{' :: q)
          (format_args.capture (a1 ++ a :: a2).length (a1 ++ a :: a2) (Nat.le_refl _))
          = .thrown .UnterminatedPlaceholder) ∧
      (q.head? ≠ some '{' →
        vformat_to ctx (p ++ '{' :: q) (format_args.capture a1.length a1 (Nat.le_refl _))
          = .thrown .MissingArgument) := by
  have hscan := vformat_run_ok_scan hp
  refine ⟨?_, ?_, ?_⟩
  · intro hq
    rw [vformat_to_eq, substitute_after_prefix hscan, substitute_cons]
    simp [hq, Outcome.map]
  · intro hq hclose
    rw [vformat_to_eq, substitute_after_prefix hscan, substitute_cons]
    simp only [if_true, hq, if_false, fill_placeholder_cons,
      substitute_inside_no_close q hclose]
    rfl
  · intro hq
    have hrest := substitute_after_prefix hscan ('{' :: q) []
    rw [List.append_nil] at hrest
    rw [vformat_to_eq, hrest, substitute_cons]
    simp only [if_true, hq, if_false, fill_placeholder_nil]
    rfl

theorem C21_driver_reports_brace_defects_witness :
    vformat_run (format_context.create 0) "ab{}".toList
        (format_args.capture 1 [Value.bool true] (Nat.le_refl _))
        = .ok ((format_context.create 0).append "abtrue".toList, 1) ∧
      vformat_to (format_context.create 0) "ab{}\x7dc".toList
        (format_args.capture 2 [Value.bool true, Value.char 'z'] (Nat.le_refl _))
        = .thrown .UnmatchedClosingBrace ∧
      vformat_to (format_context.create 0) "ab{}\x7bc".toList
        (format_args.capture 2 [Value.bool true, Value.char 'z'] (Nat.le_refl _))
        = .thrown .UnterminatedPlaceholder ∧
      vformat_to (format_context.create 0) "ab{}\x7bc".toList
        (format_args.capture 1 [Value.bool true] (Nat.le_refl _))
        = .thrown .MissingArgument :=
  ⟨by decide,
    (C21_driver_reports_brace_defects "ab{}".toList "c".toList "abtrue".toList
      [Value.bool true] [Value.char 'z'] (Value.char 'z') (format_context.create 0)
      (by decide)).1 (by decide),
    (C21_driver_reports_brace_defects "ab{}".toList "c".toList "abtrue".toList
      [Value.bool true] [] (Value.char 'z') (format_context.create 0)
      (by decide)).2.1 (by decide) (by decide),
    (C21_driver_reports_brace_defects "ab{}".toList "c".toList "abtrue".toList
      [Value.bool true] [] (Value.char 'z') (format_context.create 0)
      (by decide)).2.2 (by decide)⟩

/-- C24. Formatting is compositional over concatenation: when `vformat_to` on `t1` with
`a1` returns with output `o1` having used every argument of `a1`, and on `t2` with `a2`
returns with output `o2`, then on `t1 ++ t2` with `a1 ++ a2` it returns with output
`o1 ++ o2`. -/
theorem C24_compositional_over_concatenation (t1 t2 o1 o2 : List Char)
    (a1 a2 : List Value) (ctx : format_context)
    (h1 : vformat_run ctx t1 (format_args.capture a1.length a1 (Nat.le_refl _))
      = .ok (ctx.append o1, a1.length))
    (h2 : vformat_to ctx t2 (format_args.capture a2.length a2 (Nat.le_refl _))
      = .ok (ctx.append o2)) :
    vformat_to ctx (t1 ++ t2)
        (format_args.capture (a1 ++ a2).length (a1 ++ a2) (Nat.le_refl _))
      = .ok (ctx.append (o1 ++ o2)) := by
  have hscan := vformat_run_ok_scan h1
  rw [vformat_to_eq] at h2
  obtain ⟨r, hr, hr2⟩ := Outcome.map_eq_ok h2
  have ho2 := format_context.append_cancel hr2
  rw [vformat_to_eq, substitute_after_prefix hscan, hr]
  simp [Outcome.map, ho2]

theorem C24_compositional_over_concatenation_witness :
    vformat_run (format_context.create 0) "a={};".toList
        (format_args.capture 1 [Value.int true 4 1] (Nat.le_refl _))
        = .ok ((format_context.create 0).append "a=1;".toList, 1) ∧
      vformat_to (format_context.create 0) "{{b}}={}".toList
        (format_args.capture 1 [Value.bool false] (Nat.le_refl _))
        = .ok ((format_context.create 0).append "{b}=false".toList) ∧
      vformat_to (format_context.create 0) "a={};{{b}}={}".toList
        (format_args.capture 2 [Value.int true 4 1, Value.bool false] (Nat.le_refl _))
        = .ok ((format_context.create 0).append "a=1;{b}=false".toList) :=
  ⟨by decide, by decide,
    C24_compositional_over_concatenation "a={};".toList "{{b}}={}".toList "a=1;".toList
      "{b}=false".toList [Value.int true 4 1] [Value.bool false] (format_context.create 0)
      (by decide) (by decide)⟩

/-! ### The reservation is enough -/

theorem estimated_sizes_sum_cons (a : Value) (more : List Value) :
    estimated_sizes_sum (a :: more)
      = (format_arg.mk a).estimated_size + estimated_sizes_sum more := by
  simp [estimated_sizes_sum]

/-- The text a successful scan produces is no longer than the template it read plus the
estimates of the arguments it was given, when these are directly supported values. -/
theorem substitute_length_le (t : List Char) :
    ∀ (st : Bool) (args : List Value) (r : List Char × Nat),
      (∀ a ∈ args, a.direct) → substitute st t args = .ok r →
      r.1.length ≤ t.length + estimated_sizes_sum args := by
  induction t using list_two_step with
  | hnil =>
    intro st args r _ h
    cases st
    · simp only [substitute, Outcome.ok.injEq] at h
      subst h
      simp
    · simp [substitute] at h
  | hcons c rest ih1 ih2 =>
    intro st args r hd h
    have htail : rest.tail.length ≤ rest.length := by
      rw [List.length_tail]; omega
    cases st
    · rw [substitute_cons] at h
      by_cases ho : c = '{'
      · by_cases ho2 : rest.head? = some '{'
        · simp only [ho, if_true, ho2] at h
          obtain ⟨r1, hr1, hr⟩ := Outcome.map_eq_ok h
          subst hr
          have := ih2 false args r1 hd hr1
          simp only [List.length_cons]
          omega
        · simp only [ho, if_true, ho2, if_false] at h
          cases args with
          | nil => simp [fill_placeholder] at h
          | cons a more =>
            rw [fill_placeholder_cons] at h
            obtain ⟨r1, hr1, hr⟩ := Outcome.map_eq_ok h
            subst hr
            have hmore : ∀ x ∈ more, x.direct := fun x hx => hd x (List.mem_cons_of_mem a hx)
            have h1 := ih1 true more r1 hmore hr1
            have h2 := render_length_le_estimated_size a (hd a (List.mem_cons_self a more))
            rw [estimated_sizes_sum_cons]
            simp only [List.length_append, List.length_cons]
            omega
      · by_cases hc : c = '}'
        · by_cases hc2 : rest.head? = some '}'
          · simp only [ho, if_false, hc, if_true, hc2, show ¬ ('}' = '{') by decide] at h
            obtain ⟨r1, hr1, hr⟩ := Outcome.map_eq_ok h
            subst hr
            have := ih2 false args r1 hd hr1
            simp only [List.length_cons]
            omega
          · simp [hc, hc2] at h
        · simp only [ho, if_false, hc] at h
          obtain ⟨r1, hr1, hr⟩ := Outcome.map_eq_ok h
          subst hr
          have := ih1 false args r1 hd hr1
          simp only [List.length_cons]
          omega
    · by_cases hc : c = '}'
      · simp only [substitute, hc, if_true] at h
        have := ih1 false args r hd h
        simp only [List.length_cons]
        omega
      · simp only [substitute, hc, if_false] at h
        have := ih1 true args r hd h
        simp only [List.length_cons]
        omega

/-- C23. The reserved capacity is never exceeded for the directly supported types.
When the arguments are bools, integers, characters and strings, the template length
plus the sum of their estimates fits a `std::size_t`, and `format` succeeds, the output
is no longer than the template length plus `estimate_total_size ()`; the buffer that
`format` created with that reservation ends no larger than the reservation. -/
theorem C23_reserved_capacity_not_exceeded (t out : List Char) (args : List Value)
    (hd : ∀ a ∈ args, a.direct)
    (hfit : t.length + estimated_sizes_sum args < 2 ^ 64)
    (hok : format ⟨t⟩ args = .ok out) :
    out.length ≤ t.length + estimated_sizes_sum args ∧
      (format_args.capture args.length args (Nat.le_refl _)).estimate_total_size
        = .ok (estimated_sizes_sum args) ∧
      ∃ final : format_context,
        vformat_to (format_context.create (t.length + estimated_sizes_sum args)) t
          (format_args.capture args.length args (Nat.le_refl _)) = .ok final ∧
        final.str = out ∧ final.size ≤ final.reserved := by
  rw [format_eq] at hok
  obtain ⟨r, hr, hout⟩ := Outcome.map_eq_ok hok
  have hlen := substitute_length_le t false args r hd hr
  rw [hout] at hlen
  refine ⟨hlen, ?_, (format_context.create (t.length + estimated_sizes_sum args)).append r.1,
    ?_, ?_, ?_⟩
  · rw [capture_estimate_total, Nat.mod_eq_of_lt (by omega)]
  · rw [vformat_to_eq, hr]
    rfl
  · simpa [format_context.append, format_context.create, format_context.str] using hout
  · simp only [format_context.append, format_context.create, format_context.size,
      List.nil_append]
    rw [hout]
    exact hlen

theorem C23_reserved_capacity_not_exceeded_witness :
    (∀ a ∈ [Value.int true 4 (-7), Value.bool false], a.direct) ∧
      "{{{}}} is {}".toList.length
        + estimated_sizes_sum [Value.int true 4 (-7), Value.bool false] < 2 ^ 64 ∧
      format ⟨"{{{}}} is {}".toList⟩ [Value.int true 4 (-7), Value.bool false]
        = .ok "{-7} is false".toList ∧
      "{-7} is false".toList.length ≤ "{{{}}} is {}".toList.length
        + estimated_sizes_sum [Value.int true 4 (-7), Value.bool false] :=
  ⟨by decide, by decide, by decide,
    (C23_reserved_capacity_not_exceeded "{{{}}} is {}".toList "{-7} is false".toList
      [Value.int true 4 (-7), Value.bool false] (by decide) (by decide) (by decide)).1⟩

/-! ### The print path, `write_int` and `parse_int` -/

/-- C25. The plain print path and the template path render a value identically: for a
`bool`, an integer, a character or a string, `stream_out` writes to the stream the
text that `format_value_to` appends to a context, so `fprint (os, x)` writes the text
that `format ("{}", x)` returns. -/
theorem C25_print_and_template_paths_agree (v : Value) (os : ostream)
    (ctx : format_context) (_hd : v.direct) :
    ∃ text : List Char,
      (stream_out os v).content = os.content ++ text ∧
        (format_value_to ctx v).m_buffer = ctx.m_buffer ++ text ∧
        format_call "{}".toList [v] = .ok text ∧
        (fprint os [v]).content = os.content ++ text := by
  refine ⟨render v, stream_out_content os v, ?_, format_single v, ?_⟩
  · rw [format_value_to_eq]
    rfl
  · rw [fprint, print_impl_content]
    simp

theorem C25_print_and_template_paths_agree_witness :
    (Value.int false 2 65535).direct ∧
      (fprint ⟨"n=".toList⟩ [Value.int false 2 65535]).content = "n=65535".toList ∧
      format_call "{}".toList [Value.int false 2 65535] = .ok "65535".toList ∧
      ∃ text : List Char,
        (stream_out ⟨"n=".toList⟩ (Value.int false 2 65535)).content
            = "n=".toList ++ text ∧
          (format_value_to (format_context.create 0) (Value.int false 2 65535)).m_buffer
            = (format_context.create 0).m_buffer ++ text ∧
          format_call "{}".toList [Value.int false 2 65535] = .ok text ∧
          (fprint ⟨"n=".toList⟩ [Value.int false 2 65535]).content
            = "n=".toList ++ text :=
  ⟨by decide, by decide, by decide,
    C25_print_and_template_paths_agree (Value.int false 2 65535) ⟨"n=".toList⟩
      (format_context.create 0) (by decide)⟩

theorem digit_char_eq (d : Nat) (hd : d < 10) :
    Char.ofNat ('0'.toNat + d) = Nat.digitChar d := by
  interval_cases d <;> decide

/-- The loop of `write_int` stores, last digit first, the digits `Nat.toDigitsCore`
puts in front of its accumulator. -/
theorem write_int_loop_eq :
    ∀ (fuel value : Nat) (written : List Char), value < fuel →
      write_int_loop fuel value written
        = .ok (Nat.toDigitsCore 10 fuel value written.reverse).reverse := by
  intro fuel
  induction fuel with
  | zero => intro value written h; omega
  | succ fuel ih =>
    intro value written h
    have hd := digit_char_eq (value % 10) (Nat.mod_lt value (by decide))
    have hd2 : Char.ofNat (48 + value % 10) = Nat.digitChar (value % 10) := hd
    by_cases hq : value / 10 = 0
    · simp [write_int_loop, Nat.toDigitsCore, hq, hd2]
    · have hpos : value / 10 > 0 := Nat.pos_of_ne_zero hq
      simp only [write_int_loop, Nat.toDigitsCore, hq, hpos, if_true, if_false, hd]
      rw [ih (value / 10) _ (by omega)]
      simp

theorem write_int_digits_eq (buffer : List Char) (value : Nat) :
    write_int_digits buffer value = .ok (buffer ++ Nat.toDigits 10 value) := by
  unfold write_int_digits
  rw [write_int_loop_eq (value + 1) value [] (by omega)]
  simp [Outcome.map, Nat.toDigits]

theorem negate_to_unsigned {size : Nat} {v : Int} (hv : int_in_range true size v)
    (hneg : v < 0) : ((-v) % 2 ^ (8 * size)).toNat = v.natAbs := by
  obtain ⟨hsz, hr⟩ := hv
  rcases hsz with rfl | rfl | rfl | rfl <;> simp at hr ⊢ <;> omega

/-- The text `write_int` stores behind what the buffer holds is the text of
`std::to_chars`. -/
theorem write_int_eq (buffer : List Char) (is_signed : Bool) (size : Nat) (v : Int)
    (hv : int_in_range is_signed size v) :
    write_int buffer is_signed size v = .ok (buffer ++ to_chars v) := by
  unfold write_int to_chars
  by_cases hneg : v < 0
  · have hs : is_signed = true := by
      cases is_signed with
      | true => rfl
      | false =>
        have := hv.2
        simp at this
        omega
    subst hs
    simp only [hneg, and_self, if_true]
    rw [negate_to_unsigned hv hneg, write_int_digits_eq]
    simp
  · have hnat : v.toNat = v.natAbs := by omega
    simp only [hneg, and_false, if_false]
    rw [hnat, write_int_digits_eq]

theorem to_chars_head (v : Int) : (to_chars v).head? = some '-' ↔ v < 0 := by
  obtain ⟨hne, hdig, _⟩ := toDigits_spec v.natAbs
  unfold to_chars
  by_cases hneg : v < 0
  · simp [hneg]
  · simp only [hneg, if_false, iff_false]
    intro h
    cases hl : Nat.toDigits 10 v.natAbs with
    | nil => exact hne hl
    | cons c l =>
      rw [hl] at h hdig
      simp only [List.head?_cons, Option.some.injEq] at h
      have := hdig c (List.mem_cons_self c l)
      rw [h] at this
      exact absurd this (by decide)

/-- C26. For every value of a signed or unsigned type of 1, 2, 4 or 8 bytes, zero and
the most negative value included, `write_int` stores behind what the buffer already
holds exactly the text `format_integer` appends for the value, the returned pointer
being just past it; the text starts with a minus sign exactly when the value is
negative and reads back as the value. -/
theorem C26_write_int_matches_format_integer (buffer : List Char) (is_signed : Bool)
    (size : Nat) (v : Int) (ctx : format_context) (hv : int_in_range is_signed size v) :
    ∃ text : List Char,
      write_int buffer is_signed size v = .ok (buffer ++ text) ∧
        (format_integer ctx v).m_buffer = ctx.m_buffer ++ text ∧
        text = to_chars v ∧
        (text.head? = some '-' ↔ v < 0) ∧
        read_decimal text = v := by
  refine ⟨to_chars v, write_int_eq buffer is_signed size v hv, rfl, rfl, to_chars_head v, ?_⟩
  obtain ⟨_, hdig, hval, _⟩ := toDigits_spec v.natAbs
  unfold to_chars
  by_cases hneg : v < 0
  · simp only [hneg, if_true, read_decimal, hval]
    omega
  · simp only [hneg, if_false]
    rw [read_decimal_digits _ hdig, hval]
    omega

theorem C26_write_int_matches_format_integer_witness :
    int_in_range true 4 (-2147483648) ∧
      write_int [] true 4 (-2147483648) = .ok "-2147483648".toList ∧
      write_int "x=".toList false 1 0 = .ok "x=0".toList ∧
      ∃ text : List Char,
        write_int [] true 4 (-2147483648) = .ok ([] ++ text) ∧
          (format_integer (format_context.create 0) (-2147483648)).m_buffer
            = (format_context.create 0).m_buffer ++ text ∧
          text = to_chars (-2147483648) ∧
          (text.head? = some '-' ↔ (-2147483648 : Int) < 0) ∧
          read_decimal text = -2147483648 :=
  ⟨by decide, by decide, by decide,
    C26_write_int_matches_format_integer [] true 4 (-2147483648) (format_context.create 0)
      (by decide)⟩

theorem takeWhile_all {p : Char → Bool} (l : List Char) (h : ∀ c ∈ l, p c = true) :
    l.takeWhile p = l := by
  induction l with
  | nil => rfl
  | cons c l ih =>
    have hc := h c (List.mem_cons_self c l)
    simp only [List.takeWhile_cons, hc, if_true]
    rw [ih fun x hx => h x (List.mem_cons_of_mem c hx)]

/-- The longest numeral at the start of the text of `std::to_chars` is the whole text,
with the value that was written. -/
theorem leading_numeral_to_chars (is_signed : Bool) (size : Nat) (v : Int)
    (hv : int_in_range is_signed size v) :
    leading_numeral is_signed (to_chars v) = some v := by
  obtain ⟨hne, hdig, hval, _⟩ := toDigits_spec v.natAbs
  have hhead := to_chars_head v
  unfold leading_numeral
  by_cases hneg : v < 0
  · have hs : is_signed = true := by
      cases is_signed with
      | true => rfl
      | false =>
        have := hv.2
        simp at this
        omega
    have htail : (to_chars v).tail = Nat.toDigits 10 v.natAbs := by
      simp [to_chars, hneg]
    rw [if_pos ⟨hs, hhead.2 hneg⟩, htail, takeWhile_all _ hdig, if_neg hne, hval]
    congr 1
    omega
  · have hno : ¬ (is_signed = true ∧ (to_chars v).head? = some '-') :=
      fun h => hneg (hhead.1 h.2)
    have hself : to_chars v = Nat.toDigits 10 v.natAbs := by
      simp [to_chars, hneg]
    rw [if_neg hno, hself, takeWhile_all _ hdig, if_neg hne, hval]
    congr 1
    omega

/-- C27. The function `parse_int` undoes `write_int`: on the text `write_int` stores for
a value of the type it returns that value.  It throws "Failed to parse integer" on the
empty text, and on a text exactly when the text begins with no numeral or the numeral it
begins with is not representable in the type. -/
theorem C27_parse_int_undoes_write_int (is_signed : Bool) (size : Nat) (v : Int)
    (text str : List Char) (hv : int_in_range is_signed size v)
    (hw : write_int [] is_signed size v = .ok text) :
    parse_int is_signed size text = .value v ∧
      parse_int is_signed size [] = .thrown .FailedToParse ∧
      (parse_int is_signed size str = .thrown .FailedToParse ↔
        ∀ n, leading_numeral is_signed str = some n → ¬ int_in_range is_signed size n) ∧
      ParseError.FailedToParse.what = "Failed to parse integer" := by
  have htext : text = to_chars v := by
    rw [write_int_eq [] is_signed size v hv] at hw
    simpa using hw.symm
  refine ⟨?_, ?_, ?_, rfl⟩
  · rw [htext]
    unfold parse_int from_chars
    rw [leading_numeral_to_chars is_signed size v hv]
    simp [hv]
  · unfold parse_int from_chars leading_numeral
    simp
  · unfold parse_int from_chars
    cases hl : leading_numeral is_signed str with
    | none => simp
    | some n =>
      by_cases hn : int_in_range is_signed size n
      · simp [hn]
      · simp [hn]

theorem C27_parse_int_undoes_write_int_witness :
    int_in_range true 1 (-128) ∧
      write_int [] true 1 (-128) = .ok "-128".toList ∧
      parse_int true 1 "-128".toList = .value (-128) ∧
      parse_int true 1 "128".toList = .thrown .FailedToParse ∧
      parse_int false 4 "-5".toList = .thrown .FailedToParse ∧
      parse_int true 4 "x1".toList = .thrown .FailedToParse ∧
      parse_int true 4 "12ab".toList = .value 12 :=
  ⟨by decide, by decide,
    (C27_parse_int_undoes_write_int true 1 (-128) "-128".toList [] (by decide)
      (by decide)).1,
    by decide, by decide, by decide, by decide⟩

end fastio
